import Mathlib

/-!
Verification of the IMAP aggregation backend (tempbackend-v6).

This file gives a shallow embedding, in Lean 4, of the parts of the
TypeScript source that the specification claims talk about:

* the bounded LRU caches of `email-service.ts` / `multi-account-email-service.ts`,
* the alias engine of `email-alias.ts` and the routing / classification
  functions of `email-accounts.ts` (addresses are modelled as `List Char`,
  mirroring the character-level string operations of the source),
* the admission queue (`RequestQueue` / `ProviderRequestQueue`),
* the fetch pipelines (`fetchEmails`, `fetchProviderEmails`) with their
  error handling, viewed as functions of the sequence of IMAP outcomes,
* the IDLE handlers of both service variants,
* the delete operations and their cache footprint.

Theorems named `claim_*` settle the specification claims; the other
lemmas are shared infrastructure.
-/

set_option maxHeartbeats 1000000
set_option linter.unusedSectionVars false

namespace TempMail

/-! ### LRU cache (email-service.ts lines 42-100, multi-account service lines 497-541)

A JS `Map` iterates in insertion order, so the cache is a list of
`(key, value, timestamp)` with the head being the oldest (first-inserted)
entry and the tail end the most recently inserted. -/

structure LRUCache (K V : Type) where
  entries : List (K × V × Nat)
  maxSize : Nat
  ttl : Nat

variable {K V : Type} [DecidableEq K]

/-- The keys currently stored, in Map iteration order. -/
def LRUCache.keys (c : LRUCache K V) : List K :=
  c.entries.map (fun e => e.1)

/-- `Map.delete key` : removes the entry with the given key. -/
def LRUCache.eraseKey (entries : List (K × V × Nat)) (k : K) : List (K × V × Nat) :=
  entries.filter (fun e => decide (e.1 ≠ k))

/-- `LRUCache.get` (source lines 53-65): a miss returns `undefined`; an
entry older than the TTL is deleted and treated as a miss; a valid hit is
deleted and re-inserted (MRU promotion), returning its value. -/
def LRUCache.get (c : LRUCache K V) (now : Nat) (k : K) : Option V × LRUCache K V :=
  match c.entries.find? (fun e => decide (e.1 = k)) with
  | none => (none, c)
  | some e =>
    if c.ttl < now - e.2.2 then
      (none, { c with entries := LRUCache.eraseKey c.entries k })
    else
      (some e.2.1, { c with entries := LRUCache.eraseKey c.entries k ++ [e] })

/-- `LRUCache.set` (source lines 67-77): an existing key is deleted first;
otherwise, at capacity, the first (oldest) Map key is evicted; the new
entry is inserted at the end with the current timestamp. -/
def LRUCache.set (c : LRUCache K V) (now : Nat) (k : K) (v : V) : LRUCache K V :=
  if c.entries.any (fun e => decide (e.1 = k)) then
    { c with entries := LRUCache.eraseKey c.entries k ++ [(k, v, now)] }
  else if c.maxSize ≤ c.entries.length then
    { c with entries := c.entries.tail ++ [(k, v, now)] }
  else
    { c with entries := c.entries ++ [(k, v, now)] }

/-- `LRUCache.delete` (source line 79-81). -/
def LRUCache.del (c : LRUCache K V) (k : K) : LRUCache K V :=
  { c with entries := LRUCache.eraseKey c.entries k }

/-- `LRUCache.clear` (source line 83-85). -/
def LRUCache.clear (c : LRUCache K V) : LRUCache K V :=
  { c with entries := [] }

/-- Folding a batch of insertions (used to state the N+1-insertions law). -/
def LRUCache.setMany (c : LRUCache K V) (now : Nat) (kvs : List (K × V)) : LRUCache K V :=
  kvs.foldl (fun acc kv => acc.set now kv.1 kv.2) c

theorem LRUCache.mem_keys {c : LRUCache K V} {k : K} :
    k ∈ c.keys ↔ ∃ e ∈ c.entries, e.1 = k := by
  simp [LRUCache.keys, List.mem_map]

theorem LRUCache.not_mem_keys_eraseKey (entries : List (K × V × Nat)) (k : K) :
    ∀ e ∈ LRUCache.eraseKey entries k, e.1 ≠ k := by
  intro e he
  have := List.of_mem_filter he
  simpa using this

theorem LRUCache.set_maxSize (c : LRUCache K V) (now : Nat) (k : K) (v : V) :
    (c.set now k v).maxSize = c.maxSize := by
  simp only [LRUCache.set]
  split
  · rfl
  · split <;> rfl

theorem LRUCache.setMany_maxSize (c : LRUCache K V) (now : Nat) (kvs : List (K × V)) :
    (c.setMany now kvs).maxSize = c.maxSize := by
  induction kvs generalizing c with
  | nil => rfl
  | cons kv t ih =>
    simp only [LRUCache.setMany, List.foldl_cons] at *
    rw [ih, LRUCache.set_maxSize]

/-- A fresh key inserted below capacity is appended at the end. -/
theorem LRUCache.set_fresh_append {c : LRUCache K V} {k : K} (now : Nat) (v : V)
    (hk : k ∉ c.keys) (hlen : c.entries.length < c.maxSize) :
    (c.set now k v).entries = c.entries ++ [(k, v, now)] := by
  have hany : c.entries.any (fun e => decide (e.1 = k)) = false := by
    simp only [List.any_eq_false, decide_eq_true_eq]
    intro e he
    exact fun h => hk (LRUCache.mem_keys.2 ⟨e, he, h⟩)
  simp [LRUCache.set, hany, Nat.not_le.2 hlen]

/-- A fresh key inserted at capacity evicts the head (oldest) entry. -/
theorem LRUCache.set_fresh_evict {c : LRUCache K V} {k : K} (now : Nat) (v : V)
    (hk : k ∉ c.keys) (hlen : c.maxSize ≤ c.entries.length) :
    (c.set now k v).entries = c.entries.tail ++ [(k, v, now)] := by
  have hany : c.entries.any (fun e => decide (e.1 = k)) = false := by
    simp only [List.any_eq_false, decide_eq_true_eq]
    intro e he
    exact fun h => hk (LRUCache.mem_keys.2 ⟨e, he, h⟩)
  simp [LRUCache.set, hany, hlen]

/-- Inserting a batch of pairwise-fresh, pairwise-distinct keys that fits
under the capacity simply appends the batch in order. -/
theorem LRUCache.setMany_fresh {c : LRUCache K V} {kvs : List (K × V)} (now : Nat)
    (hfresh : ∀ kv ∈ kvs, kv.1 ∉ c.keys)
    (hnodup : (kvs.map Prod.fst).Nodup)
    (hlen : c.entries.length + kvs.length ≤ c.maxSize) :
    (c.setMany now kvs).entries = c.entries ++ kvs.map (fun kv => (kv.1, kv.2, now)) := by
  induction kvs generalizing c with
  | nil => simp [LRUCache.setMany]
  | cons kv t ih =>
    have hk : kv.1 ∉ c.keys := hfresh kv (by simp)
    have hstep : (c.set now kv.1 kv.2).entries = c.entries ++ [(kv.1, kv.2, now)] :=
      LRUCache.set_fresh_append now kv.2 hk (by simp at hlen; omega)
    have hkeys : (c.set now kv.1 kv.2).keys = c.keys ++ [kv.1] := by
      simp [LRUCache.keys, hstep]
    have hn := hnodup
    rw [List.map_cons, List.nodup_cons] at hn
    have hnodup' : (t.map Prod.fst).Nodup := hn.2
    have hfresh' : ∀ kv' ∈ t, kv'.1 ∉ (c.set now kv.1 kv.2).keys := by
      intro kv' hkv'
      rw [hkeys]
      simp only [List.mem_append, List.mem_singleton]
      rintro (h | h)
      · exact hfresh kv' (by simp [hkv']) h
      · have hmem : kv'.1 ∈ t.map Prod.fst := List.mem_map_of_mem Prod.fst hkv'
        rw [h] at hmem
        exact hn.1 hmem
    have hlen' : (c.set now kv.1 kv.2).entries.length + t.length ≤ (c.set now kv.1 kv.2).maxSize := by
      rw [LRUCache.set_maxSize, hstep]
      simp at hlen ⊢
      omega
    have := ih hfresh' hnodup' hlen'
    simp only [LRUCache.setMany, List.foldl_cons] at *
    rw [this, hstep]
    simp

/-- Inserting `N + 1` distinct keys into an empty cache of capacity `N ≥ 1`
leaves the first-inserted key absent. -/
theorem LRUCache.first_evicted (N ttl now : Nat) (hN : 1 ≤ N)
    (k0 : K) (ks : List K) (f : K → V) (hlen : ks.length = N)
    (hnodup : (k0 :: ks).Nodup) :
    k0 ∉ ((⟨[], N, ttl⟩ : LRUCache K V).setMany now
      ((k0 :: ks).map (fun k => (k, f k)))).keys := by
  rcases List.eq_nil_or_concat ks with rfl | ⟨init, klast, rfl⟩
  · simp at hlen; omega
  rw [List.concat_eq_append] at hnodup hlen ⊢
  have hinit : init.length + 1 = N := by simpa using hlen
  have hk0init : k0 ∉ init := by
    have := (List.nodup_cons.1 hnodup).1
    intro h; exact this (by simp [h])
  have hk0last : k0 ≠ klast := by
    have := (List.nodup_cons.1 hnodup).1
    intro h; exact this (by simp [h])
  have hlastinit : klast ∉ init := by
    have := (List.nodup_cons.1 hnodup).2
    have := List.nodup_append.1 this
    intro h
    exact this.2.2 h (by simp)
  have hinitnodup : init.Nodup := (List.nodup_append.1 (List.nodup_cons.1 hnodup).2).1
  have hmapsplit : ((k0 :: (init ++ [klast])).map (fun k => (k, f k)))
      = ((k0 :: init).map (fun k => (k, f k))) ++ [(klast, f klast)] := by
    simp
  rw [hmapsplit]
  have hfold : ∀ (c : LRUCache K V) (l1 l2 : List (K × V)),
      c.setMany now (l1 ++ l2) = (c.setMany now l1).setMany now l2 := by
    intro c l1 l2
    simp [LRUCache.setMany, List.foldl_append]
  rw [hfold]
  set c0 : LRUCache K V := ⟨[], N, ttl⟩ with hc0
  have hphase1 : (c0.setMany now ((k0 :: init).map (fun k => (k, f k)))).entries
      = (k0 :: init).map (fun k => (k, f k, now)) := by
    have hfr : ∀ kv ∈ (k0 :: init).map (fun k => (k, f k)), kv.1 ∉ c0.keys := by
      intro kv hkv
      simp [hc0, LRUCache.keys]
    have := LRUCache.setMany_fresh (c := c0) now hfr
      (by
        have : ((k0 :: init).map (fun k => (k, f k))).map Prod.fst = k0 :: init := by
          simp [List.map_map, Function.comp_def]
        rw [this]
        exact List.nodup_cons.2 ⟨hk0init, hinitnodup⟩)
      (by simp [hc0]; omega)
    rw [this]
    simp [hc0, List.map_map, Function.comp_def]
  set c1 := c0.setMany now ((k0 :: init).map (fun k => (k, f k))) with hc1
  have hc1max : c1.maxSize = N := by
    rw [hc1, LRUCache.setMany_maxSize]
  have hc1keys : c1.keys = k0 :: init := by
    simp [LRUCache.keys, hphase1, List.map_map, Function.comp_def]
  have hlastfresh : klast ∉ c1.keys := by
    rw [hc1keys]
    intro h
    rcases List.mem_cons.1 h with h | h
    · exact hk0last h.symm
    · exact hlastinit h
  have hatcap : c1.maxSize ≤ c1.entries.length := by
    rw [hc1max, hphase1]
    simp
    omega
  have hstep : (LRUCache.setMany c1 now [(klast, f klast)]).entries
      = c1.entries.tail ++ [(klast, f klast, now)] := by
    simp only [LRUCache.setMany, List.foldl_cons, List.foldl_nil]
    exact LRUCache.set_fresh_evict now (f klast) hlastfresh hatcap
  rw [LRUCache.mem_keys]
  rintro ⟨e, he, hek⟩
  rw [hstep, hphase1] at he
  simp only [List.map_cons, List.tail_cons, List.mem_append, List.mem_singleton] at he
  rcases he with he | he
  · rcases List.mem_map.1 he with ⟨a, ha, rfl⟩
    have h3 : a = k0 := hek
    rw [h3] at ha
    exact hk0init ha
  · rw [he] at hek
    exact hk0last hek.symm

/-- **C9.** LRU eviction law, TTL expiry on `get`, and MRU promotion on `get`:
(i) after inserting `N + 1` distinct keys (at one timestamp, hence within the
TTL, with no intervening `get`) into an empty cache of capacity `N ≥ 1`, the
first-inserted key is absent; (ii) a `get` on an entry older than the TTL
returns nothing and removes the entry; (iii) a `get` on a valid entry returns
its value and moves it to the most-recently-used (last) position. -/
theorem claim_C9_lru_laws {K V : Type} [DecidableEq K]
    (N ttl now : Nat) (hN : 1 ≤ N)
    (k0 : K) (ks : List K) (f : K → V) (hlen : ks.length = N)
    (hnodup : (k0 :: ks).Nodup)
    (c : LRUCache K V) (k : K) (e : K × V × Nat)
    (hfind : c.entries.find? (fun x => decide (x.1 = k)) = some e) :
    (k0 ∉ ((⟨[], N, ttl⟩ : LRUCache K V).setMany now
        ((k0 :: ks).map (fun k => (k, f k)))).keys)
    ∧ (c.ttl < now - e.2.2 →
        c.get now k = (none, { c with entries := LRUCache.eraseKey c.entries k })
        ∧ ∀ e' ∈ (c.get now k).2.entries, e'.1 ≠ k)
    ∧ (now - e.2.2 ≤ c.ttl →
        c.get now k = (some e.2.1, { c with entries := LRUCache.eraseKey c.entries k ++ [e] })
        ∧ (c.get now k).2.entries.getLast? = some e) := by
  refine ⟨LRUCache.first_evicted N ttl now hN k0 ks f hlen hnodup, ?_, ?_⟩
  · intro hexp
    have hget : c.get now k = (none, { c with entries := LRUCache.eraseKey c.entries k }) := by
      simp [LRUCache.get, hfind, hexp]
    refine ⟨hget, ?_⟩
    rw [hget]
    exact LRUCache.not_mem_keys_eraseKey c.entries k
  · intro hval
    have hget : c.get now k
        = (some e.2.1, { c with entries := LRUCache.eraseKey c.entries k ++ [e] }) := by
      simp [LRUCache.get, hfind, Nat.not_lt.2 hval]
    refine ⟨hget, ?_⟩
    rw [hget]
    simp

/-- Concrete witness for the C9 laws: capacity 2, keys 10, 20, 30; a cache
holding key 7 stamped at time 0 read at time 50 with TTL 40 (expired) and
at time 30 (valid). -/
theorem claim_C9_lru_laws_witness :
    (10 ∉ ((⟨[], 2, 40⟩ : LRUCache Nat Nat).setMany 5
        (([10, 20, 30] : List Nat).map (fun k => (k, k + 1)))).keys)
    ∧ ((⟨[(7, 99, 0)], 2, 40⟩ : LRUCache Nat Nat).get 50 7
        = (none, ⟨[], 2, 40⟩)
        ∧ (⟨[(7, 99, 0)], 2, 40⟩ : LRUCache Nat Nat).get 5 7
        = (some 99, ⟨[(7, 99, 0)], 2, 40⟩)) := by
  have h1 := claim_C9_lru_laws (K := Nat) (V := Nat) 2 40 5 (by decide)
    10 [20, 30] (fun k => k + 1) (by decide) (by decide)
    (⟨[(7, 99, 0)], 2, 40⟩ : LRUCache Nat Nat) 7 (7, 99, 0) (by decide)
  have h2 := claim_C9_lru_laws (K := Nat) (V := Nat) 2 40 50 (by decide)
    10 [20, 30] (fun k => k + 1) (by decide) (by decide)
    (⟨[(7, 99, 0)], 2, 40⟩ : LRUCache Nat Nat) 7 (7, 99, 0) (by decide)
  refine ⟨h1.1, ?_, ?_⟩
  · have := (h2.2.1 (by decide)).1
    simpa [LRUCache.eraseKey] using this
  · have := (h1.2.2 (by decide)).1
    simpa [LRUCache.eraseKey] using this

/-! ### ASCII lowering (JS `toLowerCase`, modelled by `Char.toLower`) -/

theorem toNat_ofNat_of_small {n : Nat} (h : n < 55296) : (Char.ofNat n).toNat = n := by
  have hv : n.isValidChar := Or.inl h
  simp [Char.ofNat, dif_pos hv, Char.ofNatAux, Char.toNat, UInt32.toNat]

theorem toNat_injective {c d : Char} (h : c.toNat = d.toNat) : c = d := by
  rw [← Char.ofNat_toNat c, ← Char.ofNat_toNat d, h]

theorem toLower_of_not_upper {c : Char} (h : ¬(65 ≤ c.toNat ∧ c.toNat ≤ 90)) :
    c.toLower = c := by
  simp only [Char.toLower]
  rw [if_neg]
  intro hc
  exact h ⟨hc.1, hc.2⟩

theorem toNat_toLower_of_upper {c : Char} (h : 65 ≤ c.toNat ∧ c.toNat ≤ 90) :
    c.toLower.toNat = c.toNat + 32 := by
  simp only [Char.toLower]
  rw [if_pos ⟨h.1, h.2⟩]
  exact toNat_ofNat_of_small (by omega)

theorem toLower_toLower (c : Char) : c.toLower.toLower = c.toLower := by
  by_cases h : 65 ≤ c.toNat ∧ c.toNat ≤ 90
  · have := toNat_toLower_of_upper h
    apply toLower_of_not_upper
    omega
  · rw [toLower_of_not_upper h, toLower_of_not_upper h]

/-- For a target character outside the letter range (such as `'@'`, `'+'`,
`'.'`), lowering neither creates nor destroys occurrences. -/
theorem toLower_eq_nonletter {c d : Char} (hd : d.toNat < 65) :
    c.toLower = d ↔ c = d := by
  constructor
  · intro h
    by_cases hc : 65 ≤ c.toNat ∧ c.toNat ≤ 90
    · have h1 := toNat_toLower_of_upper hc
      rw [h] at h1
      omega
    · rw [toLower_of_not_upper hc] at h
      exact h
  · intro h
    rw [h]
    exact toLower_of_not_upper (by omega)

/-- `toLowerCase` on a character list. -/
def lcLower (s : List Char) : List Char := s.map Char.toLower

theorem lcLower_append (a b : List Char) : lcLower (a ++ b) = lcLower a ++ lcLower b := by
  simp [lcLower]

theorem lcLower_cons (c : Char) (s : List Char) :
    lcLower (c :: s) = c.toLower :: lcLower s := rfl

theorem lcLower_idem (s : List Char) : lcLower (lcLower s) = lcLower s := by
  simp only [lcLower, List.map_map]
  exact List.map_congr_left (fun c _ => toLower_toLower c)

theorem lcLower_length (s : List Char) : (lcLower s).length = s.length := by
  simp [lcLower]

theorem mem_lcLower_nonletter {s : List Char} {d : Char} (hd : d.toNat < 65) :
    d ∈ lcLower s ↔ d ∈ s := by
  simp only [lcLower, List.mem_map]
  constructor
  · rintro ⟨c, hc, h⟩
    rw [(toLower_eq_nonletter hd).1 h] at hc
    exact hc
  · intro h
    exact ⟨d, h, (toLower_eq_nonletter hd).2 rfl⟩

/-! ### Account registry and alias engine
(email-accounts.ts, email-alias.ts; addresses as `List Char`) -/

inductive Provider where
  | gmail
  | outlook
deriving DecidableEq

structure AccountIdentifier where
  email : List Char
  provider : Provider
deriving DecidableEq

structure GeneratedAlias where
  aliasAddress : List Char
  baseEmail : List Char
  provider : Provider
deriving DecidableEq

def atGmail : List Char := "@gmail.com".toList

def atOutlook : List Char := "@outlook.com".toList

def atHotmail : List Char := "@hotmail.com".toList

/-- `s.split("@")[0]` / the part of an address before the first `@`. -/
def localOf (s : List Char) : List Char := s.takeWhile (fun c => decide (c ≠ '@'))

/-- `s.split("+")[0]`. -/
def beforePlus (s : List Char) : List Char := s.takeWhile (fun c => decide (c ≠ '+'))

/-- `s.replace(/\./g, "")`. -/
def stripDots (s : List Char) : List Char := s.filter (fun c => decide (c ≠ '.'))

/-- The regex `^([^@]+)@gmail\.com$/i`: the final 10 characters lower to
`"@gmail.com"` and the rest is a nonempty `@`-free local part, returned
in its original case (capture group 1). -/
def matchGmail (s : List Char) : Option (List Char) :=
  if atGmail.length + 1 ≤ s.length
      ∧ lcLower (s.drop (s.length - atGmail.length)) = atGmail
      ∧ '@' ∉ s.take (s.length - atGmail.length)
  then some (s.take (s.length - atGmail.length)) else none

/-- The regex `^([^@]+)@(outlook\.com|hotmail\.com)$/i` (both domain
alternatives are 11 characters long): returns capture groups 1 (local
part) and 2 (domain, original case). -/
def matchOutlook (s : List Char) : Option (List Char × List Char) :=
  if atOutlook.length + 1 ≤ s.length
      ∧ (lcLower (s.drop (s.length - atOutlook.length)) = atOutlook
         ∨ lcLower (s.drop (s.length - atOutlook.length)) = atHotmail)
      ∧ '@' ∉ s.take (s.length - atOutlook.length)
  then some (s.take (s.length - atOutlook.length), s.drop (s.length - atOutlook.length + 1))
  else none

def suffixChars : List Char := "abcdefghijklmnopqrstuvwxyz0123456789".toList

theorem suffixChars_length : suffixChars.length = 36 := by decide

/-- `generateRandomSuffix` (email-alias.ts lines 10-17); the six draws of
`Math.floor(Math.random() * chars.length)` are supplied by `r`. -/
def generateRandomSuffix (r : Fin 6 → Fin 36) : List Char :=
  List.ofFn (fun i : Fin 6 =>
    suffixChars.get ⟨(r i).val, by rw [suffixChars_length]; exact (r i).isLt⟩)

/-- `generateGmailAlias` (email-alias.ts lines 19-35).
`customSuffix || generateRandomSuffix()` means an absent or empty caller
suffix is replaced by the random one; no other check is performed. -/
def generateGmailAlias (baseEmail : List Char) (customSuffix : Option (List Char))
    (r : Fin 6 → Fin 36) : Option GeneratedAlias :=
  match matchGmail baseEmail with
  | none => none
  | some localPart =>
    let suffix := match customSuffix with
      | some s => if s = [] then generateRandomSuffix r else s
      | none => generateRandomSuffix r
    some ⟨localPart ++ '+' :: (suffix ++ atGmail), baseEmail, Provider.gmail⟩

/-- `generateGmailDotAlias` (email-alias.ts lines 37-59); the draw
`Math.floor(Math.random() * (localPart.length - 1))` is supplied as `p`,
so the dot position is `p + 1`. -/
def generateGmailDotAlias (baseEmail : List Char) (p : Nat) (r : Fin 6 → Fin 36) :
    Option GeneratedAlias :=
  match matchGmail baseEmail with
  | none => none
  | some localPart0 =>
    let localPart := stripDots localPart0
    if localPart.length < 2 then generateGmailAlias baseEmail none r
    else
      let dottedLocal := localPart.take (p + 1) ++ '.' :: localPart.drop (p + 1)
      some ⟨dottedLocal ++ atGmail, baseEmail, Provider.gmail⟩

/-- `generateOutlookAlias` (email-alias.ts lines 61-78). -/
def generateOutlookAlias (baseEmail : List Char) (customSuffix : Option (List Char))
    (r : Fin 6 → Fin 36) : Option GeneratedAlias :=
  match matchOutlook baseEmail with
  | none => none
  | some (localPart, domain) =>
    let suffix := match customSuffix with
      | some s => if s = [] then generateRandomSuffix r else s
      | none => generateRandomSuffix r
    some ⟨localPart ++ '+' :: (suffix ++ '@' :: domain), baseEmail, Provider.outlook⟩

/-- The body of the `for` loop of `getBaseEmailFromAlias`
(email-accounts.ts lines 117-144) for one account. -/
def routeAccount (lowerAlias : List Char) (account : AccountIdentifier) :
    Option (List Char × Provider) :=
  let localPart := localOf (lcLower account.email)
  match account.provider with
  | Provider.gmail =>
    match matchGmail lowerAlias with
    | some aliasLocal =>
      if stripDots (beforePlus aliasLocal) = stripDots localPart
      then some (account.email, Provider.gmail) else none
    | none => none
  | Provider.outlook =>
    match matchOutlook lowerAlias with
    | some (aliasLocal, _) =>
      if beforePlus aliasLocal = localPart
      then some (account.email, Provider.outlook) else none
    | none => none

/-- `getBaseEmailFromAlias` (email-accounts.ts lines 113-147): lowercase
the recipient, try each known account in order, return the first match. -/
def getBaseEmailFromAlias (accounts : List AccountIdentifier) (aliasAddress : List Char) :
    Option (List Char × Provider) :=
  accounts.findSome? (routeAccount (lcLower aliasAddress))

/-- `isAliasEmail` (email-accounts.ts lines 149-165). -/
def isAliasEmail (accounts : List AccountIdentifier) (address : List Char) : Bool :=
  let lowerAddr := lcLower address
  if '+' ∈ lowerAddr then true
  else if accounts.any (fun a => decide (lcLower a.email = lowerAddr)) then false
  else (getBaseEmailFromAlias accounts address).isSome

/-! ### Helper lemmas about the string primitives -/

theorem takeWhile_all {α : Type} {p : α → Bool} {l : List α} (h : ∀ c ∈ l, p c = true) :
    l.takeWhile p = l := by
  induction l with
  | nil => rfl
  | cons a t ih =>
    rw [List.takeWhile_cons, if_pos (h a (by simp))]
    rw [ih (fun c hc => h c (by simp [hc]))]

theorem takeWhile_append_all {α : Type} {p : α → Bool} {l1 : List α}
    (h : ∀ c ∈ l1, p c = true) (l2 : List α) :
    (l1 ++ l2).takeWhile p = l1 ++ l2.takeWhile p := by
  rw [List.takeWhile_append, if_pos]
  rw [takeWhile_all h]

theorem atGmail_lcLower : lcLower atGmail = atGmail := by decide

theorem beforePlus_eq {L S : List Char} (h : '+' ∉ L) :
    beforePlus (L ++ '+' :: S) = L := by
  rw [beforePlus, takeWhile_append_all, List.takeWhile_cons]
  · simp
  · intro c hc
    simp only [decide_eq_true_eq]
    intro e
    exact h (e ▸ hc)

theorem beforePlus_all {L : List Char} (h : '+' ∉ L) : beforePlus L = L := by
  rw [beforePlus, takeWhile_all]
  intro c hc
  simp only [decide_eq_true_eq]
  intro e
  exact h (e ▸ hc)

theorem localOf_append_at {L D : List Char} (h : '@' ∉ L) :
    localOf (L ++ '@' :: D) = L := by
  rw [localOf, takeWhile_append_all, List.takeWhile_cons]
  · simp
  · intro c hc
    simp only [decide_eq_true_eq]
    intro e
    exact h (e ▸ hc)

theorem lcLower_stripDots (s : List Char) : lcLower (stripDots s) = stripDots (lcLower s) := by
  induction s with
  | nil => rfl
  | cons c t ih =>
    by_cases h : c = '.'
    · subst h
      have h1 : stripDots ('.' :: t) = stripDots t := by
        simp [stripDots]
      have h2 : stripDots (lcLower ('.' :: t)) = stripDots (lcLower t) := by
        rw [lcLower_cons]
        have hdot : ('.').toLower = '.' := by decide
        rw [hdot]
        simp [stripDots]
      rw [h1, h2, ih]
    · have hlow : c.toLower ≠ '.' := fun e => h ((toLower_eq_nonletter (by decide)).1 e)
      have h1 : stripDots (c :: t) = c :: stripDots t := by
        simp [stripDots, h]
      have h3 : stripDots (lcLower (c :: t)) = c.toLower :: stripDots (lcLower t) := by
        rw [lcLower_cons]
        simp [stripDots, hlow]
      rw [h1, h3, lcLower_cons, ih]

theorem stripDots_idem (s : List Char) : stripDots (stripDots s) = stripDots s := by
  rw [stripDots, stripDots, List.filter_filter]
  congr 1
  funext c
  rcases Decidable.em (c = '.') with h | h <;> simp [h]

theorem stripDots_append (a b : List Char) :
    stripDots (a ++ b) = stripDots a ++ stripDots b := by
  simp [stripDots]

theorem not_mem_stripDots {c : Char} {s : List Char} (h : c ∉ s) : c ∉ stripDots s := by
  intro hc
  exact h (List.mem_of_mem_filter hc)

theorem not_mem_take {c : Char} {s : List Char} (h : c ∉ s) (n : Nat) : c ∉ s.take n := by
  intro hc
  exact h (List.mem_of_mem_take hc)

theorem not_mem_drop {c : Char} {s : List Char} (h : c ∉ s) (n : Nat) : c ∉ s.drop n := by
  intro hc
  exact h (List.mem_of_mem_drop hc)

/-- `matchGmail` on `local ++ "@gmail.com"` with a nonempty `@`-free local. -/
theorem matchGmail_append {w : List Char} (hw : w ≠ []) (hat : '@' ∉ w) :
    matchGmail (w ++ atGmail) = some w := by
  have hlen : (w ++ atGmail).length = w.length + atGmail.length := by simp
  have hsub : (w ++ atGmail).length - atGmail.length = w.length := by omega
  have hpos : 0 < w.length := List.length_pos.2 hw
  rw [matchGmail, if_pos]
  · rw [hsub, List.take_left]
  · refine ⟨by omega, ?_, ?_⟩
    · rw [hsub, List.drop_left, atGmail_lcLower]
    · rw [hsub, List.take_left]
      exact hat

/-- Decomposing a successful `matchGmail`. -/
theorem matchGmail_some {s L : List Char} (h : matchGmail s = some L) :
    s = L ++ s.drop (s.length - atGmail.length)
    ∧ lcLower (s.drop (s.length - atGmail.length)) = atGmail
    ∧ L ≠ [] ∧ '@' ∉ L := by
  rw [matchGmail] at h
  by_cases hc : atGmail.length + 1 ≤ s.length
      ∧ lcLower (s.drop (s.length - atGmail.length)) = atGmail
      ∧ '@' ∉ s.take (s.length - atGmail.length)
  · rw [if_pos hc] at h
    have hL : L = s.take (s.length - atGmail.length) := by
      injection h with h
      exact h.symm
    subst hL
    refine ⟨(List.take_append_drop _ s).symm, hc.2.1, ?_, hc.2.2⟩
    have : (s.take (s.length - atGmail.length)).length = s.length - atGmail.length := by
      rw [List.length_take]
      have := hc.1
      omega
    intro he
    rw [he] at this
    simp at this
    have := hc.1
    omega
  · rw [if_neg hc] at h
    cases h

/-- Decomposing a successful `matchOutlook`. -/
theorem matchOutlook_some {s L D : List Char} (h : matchOutlook s = some (L, D)) :
    s = L ++ '@' :: D
    ∧ (lcLower ('@' :: D) = atOutlook ∨ lcLower ('@' :: D) = atHotmail)
    ∧ L ≠ [] ∧ '@' ∉ L := by
  rw [matchOutlook] at h
  by_cases hc : atOutlook.length + 1 ≤ s.length
      ∧ (lcLower (s.drop (s.length - atOutlook.length)) = atOutlook
         ∨ lcLower (s.drop (s.length - atOutlook.length)) = atHotmail)
      ∧ '@' ∉ s.take (s.length - atOutlook.length)
  · rw [if_pos hc] at h
    have hL : L = s.take (s.length - atOutlook.length)
        ∧ D = s.drop (s.length - atOutlook.length + 1) := by
      injection h with h
      injection h with h1 h2
      exact ⟨h1.symm, h2.symm⟩
    have h12 : atOutlook.length = 12 := by decide
    have hc1 := hc.1
    rw [h12] at hc1
    have hlt : s.length - atOutlook.length < s.length := by
      rw [h12]
      omega
    have hdropcons : s.drop (s.length - atOutlook.length)
        = s[s.length - atOutlook.length] :: s.drop (s.length - atOutlook.length + 1) :=
      List.drop_eq_getElem_cons hlt
    have hhead : s[s.length - atOutlook.length] = '@' := by
      have hout : atOutlook.head? = some '@' := by decide
      have hhot : atHotmail.head? = some '@' := by decide
      rcases hc.2.1 with he | he
      · rw [hdropcons, lcLower_cons] at he
        have h0 := congrArg List.head? he
        rw [List.head?_cons, hout] at h0
        injection h0 with h0c
        exact (toLower_eq_nonletter (by decide)).1 h0c
      · rw [hdropcons, lcLower_cons] at he
        have h0 := congrArg List.head? he
        rw [List.head?_cons, hhot] at h0
        injection h0 with h0c
        exact (toLower_eq_nonletter (by decide)).1 h0c
    refine ⟨?_, ?_, ?_, ?_⟩
    · rw [hL.1, hL.2, ← hhead, ← hdropcons]
      exact (List.take_append_drop _ s).symm
    · rw [hL.2, ← hhead, ← hdropcons]
      exact hc.2.1
    · have hlen : (s.take (s.length - atOutlook.length)).length = s.length - atOutlook.length := by
        rw [List.length_take, h12]
        omega
      rw [hL.1]
      intro he
      rw [he] at hlen
      simp at hlen
      rw [h12] at hlen
      omega
    · rw [hL.1]
      exact hc.2.2
  · rw [if_neg hc] at h
    cases h

/-- `matchOutlook` on `local ++ "@" ++ domain` for an outlook/hotmail domain. -/
theorem matchOutlook_append {w D : List Char} (hw : w ≠ []) (hat : '@' ∉ w)
    (hD : lcLower ('@' :: D) = atOutlook ∨ lcLower ('@' :: D) = atHotmail) :
    matchOutlook (w ++ '@' :: D) = some (w, D) := by
  have h12 : atOutlook.length = 12 := by decide
  have h12b : atHotmail.length = 12 := by decide
  have hDlen : D.length = 11 := by
    rcases hD with he | he
    · have h0 := congrArg List.length he
      rw [h12] at h0
      simp [lcLower] at h0
      omega
    · have h0 := congrArg List.length he
      rw [h12b] at h0
      simp [lcLower] at h0
      omega
  have hslen : (w ++ '@' :: D).length = w.length + 12 := by simp [hDlen]
  have hsub : (w ++ '@' :: D).length - atOutlook.length = w.length := by
    rw [h12, hslen]
    omega
  have hpos : 0 < w.length := List.length_pos.2 hw
  have hdrop : (w ++ '@' :: D).drop w.length = '@' :: D := List.drop_left w ('@' :: D)
  have htake : (w ++ '@' :: D).take w.length = w := List.take_left w ('@' :: D)
  have hdrop1 : (w ++ '@' :: D).drop (w.length + 1) = D := by
    have hsplit : w ++ '@' :: D = (w ++ ['@']) ++ D := by simp
    rw [hsplit]
    have hl : (w ++ ['@']).length = w.length + 1 := by simp
    rw [← hl]
    exact List.drop_left (w ++ ['@']) D
  rw [matchOutlook, if_pos]
  · rw [hsub, htake, hdrop1]
  · refine ⟨by rw [h12, hslen]; omega, ?_, ?_⟩
    · rw [hsub, hdrop]
      exact hD
    · rw [hsub, htake]
      exact hat

/-- An alias ending in `@gmail.com` never matches the outlook regex. -/
theorem matchOutlook_gmailTail {w : List Char} (hat : '@' ∉ w) :
    matchOutlook (w ++ atGmail) = none := by
  have h10 : atGmail.length = 10 := by decide
  have h12 : atOutlook.length = 12 := by decide
  have hslen : (w ++ atGmail).length = w.length + 10 := by simp [h10]
  rw [matchOutlook, if_neg]
  intro hcond
  have hc1 := hcond.1
  rw [h12, hslen] at hc1
  have hw3 : 3 ≤ w.length := by omega
  have hsub : (w ++ atGmail).length - atOutlook.length = w.length - 2 := by
    rw [h12, hslen]
    omega
  have hle : w.length - 2 ≤ w.length := by omega
  have hdrop : (w ++ atGmail).drop (w.length - 2) = w.drop (w.length - 2) ++ atGmail :=
    List.drop_append_of_le_length hle
  have hlt : w.length - 2 < w.length := by omega
  have hcons : w.drop (w.length - 2) = w[w.length - 2] :: w.drop (w.length - 2 + 1) :=
    List.drop_eq_getElem_cons hlt
  have hne : w[w.length - 2] ≠ '@' := by
    intro he
    exact hat (he ▸ List.getElem_mem hlt)
  have hc2 := hcond.2.1
  rw [hsub, hdrop, hcons] at hc2
  simp only [List.cons_append, lcLower_cons] at hc2
  rcases hc2 with he | he
  · have h0 := congrArg List.head? he
    rw [List.head?_cons] at h0
    have hh : atOutlook.head? = some '@' := by decide
    rw [hh] at h0
    injection h0 with h0c
    exact hne ((toLower_eq_nonletter (by decide)).1 h0c)
  · have h0 := congrArg List.head? he
    rw [List.head?_cons] at h0
    have hh : atHotmail.head? = some '@' := by decide
    rw [hh] at h0
    injection h0 with h0c
    exact hne ((toLower_eq_nonletter (by decide)).1 h0c)

/-- An alias ending in an outlook/hotmail domain never matches the gmail
regex: its `[^@]+` capture would have to span the `@`. -/
theorem matchGmail_outlookTail {w D : List Char} (hD : D.length = 11) :
    matchGmail (w ++ '@' :: D) = none := by
  have h10 : atGmail.length = 10 := by decide
  have hslen : (w ++ '@' :: D).length = w.length + 12 := by simp [hD]
  rw [matchGmail, if_neg]
  intro hcond
  have hc3 := hcond.2.2
  have hsub : (w ++ '@' :: D).length - atGmail.length = w.length + 2 := by
    rw [h10, hslen]
    omega
  rw [hsub] at hc3
  apply hc3
  rw [List.take_append_eq_append_take]
  have htw : w.take (w.length + 2) = w := List.take_of_length_le (by omega)
  rw [htw]
  have h2 : ('@' :: D).take (w.length + 2 - w.length) = '@' :: D.take 1 := by
    have : w.length + 2 - w.length = 2 := by omega
    rw [this]
    rfl
  rw [h2]
  simp

/-- `findSome?` returns the unique account that routes, when it is the only
one that can. -/
theorem findSome?_unique {α β : Type} {f : α → Option β} {l : List α} {b : α} {res : β}
    (hb : b ∈ l) (hres : f b = some res)
    (huniq : ∀ a ∈ l, f a ≠ none → a = b) :
    l.findSome? f = some res := by
  induction l with
  | nil => cases hb
  | cons a t ih =>
    rw [List.findSome?_cons]
    by_cases hab : a = b
    · subst hab
      rw [hres]
    · have ha : f a = none := by
        by_contra hne
        exact hab (huniq a (by simp) hne)
      rw [ha]
      apply ih
      · rcases List.mem_cons.1 hb with h | h
        · exact absurd h.symm hab
        · exact h
      · exact fun x hx hne => huniq x (by simp [hx]) hne

/-- The local part of a gmail-shaped account address, lowercased. -/
theorem localOf_of_matchGmail {s L : List Char} (h : matchGmail s = some L) :
    localOf (lcLower s) = lcLower L := by
  obtain ⟨hdecomp, hlow, hne, hat⟩ := matchGmail_some h
  conv_lhs => rw [hdecomp]
  rw [lcLower_append, hlow, localOf, takeWhile_append_all]
  · have : List.takeWhile (fun c => decide (c ≠ '@')) atGmail = [] := by decide
    rw [this, List.append_nil]
  · intro c hc
    simp only [decide_eq_true_eq]
    intro he
    rw [he] at hc
    exact absurd ((mem_lcLower_nonletter (by decide)).1 hc) hat

/-- The local part of an outlook-shaped account address, lowercased. -/
theorem localOf_of_matchOutlook {s L D : List Char} (h : matchOutlook s = some (L, D)) :
    localOf (lcLower s) = lcLower L := by
  obtain ⟨hdecomp, hlow, hne, hat⟩ := matchOutlook_some h
  conv_lhs => rw [hdecomp]
  rw [lcLower_append, localOf, takeWhile_append_all]
  · have hcons : lcLower ('@' :: D) = '@' :: lcLower D := by
      rw [lcLower_cons]
      congr 1
    rw [hcons, List.takeWhile_cons]
    simp
  · intro c hc
    simp only [decide_eq_true_eq]
    intro he
    rw [he] at hc
    exact absurd ((mem_lcLower_nonletter (by decide)).1 hc) hat

/-- Routing a lowered address of the shape `w ++ "@gmail.com"` resolves to
the unique gmail account whose dot-stripped local part matches. -/
theorem getBase_gmail_shaped (accounts : List AccountIdentifier) (B : AccountIdentifier)
    (hB : B ∈ accounts) (hBg : B.provider = Provider.gmail)
    (aliasAddr w : List Char)
    (hw : w ≠ []) (hwat : '@' ∉ w)
    (hkey : stripDots (beforePlus w) = stripDots (localOf (lcLower B.email)))
    (huniq : ∀ A ∈ accounts, A.provider = Provider.gmail →
        stripDots (localOf (lcLower A.email)) = stripDots (beforePlus w) → A = B)
    (halias : lcLower aliasAddr = w ++ atGmail) :
    getBaseEmailFromAlias accounts aliasAddr = some (B.email, Provider.gmail) := by
  have hmatch : matchGmail (lcLower aliasAddr) = some w := by
    rw [halias]
    exact matchGmail_append hw hwat
  rw [getBaseEmailFromAlias]
  apply findSome?_unique hB
  · obtain ⟨Be, Bp⟩ := B
    simp only at hBg
    subst hBg
    simp only [routeAccount, hmatch]
    rw [if_pos hkey]
  · intro A hA hroute
    obtain ⟨Ae, Ap⟩ := A
    cases Ap with
    | gmail =>
      simp only [routeAccount, hmatch] at hroute
      by_cases hkeyA : stripDots (beforePlus w)
          = stripDots (localOf (lcLower (⟨Ae, Provider.gmail⟩ : AccountIdentifier).email))
      · exact huniq ⟨Ae, Provider.gmail⟩ hA rfl hkeyA.symm
      · rw [if_neg hkeyA] at hroute
        exact absurd rfl hroute
    | outlook =>
      have hnone : matchOutlook (lcLower aliasAddr) = none := by
        rw [halias]
        exact matchOutlook_gmailTail hwat
      simp only [routeAccount, hnone] at hroute
      exact absurd rfl hroute

/-- Routing a lowered address of the shape `w ++ "@" ++ D` with an
outlook/hotmail domain resolves to the unique outlook account whose local
part matches. -/
theorem getBase_outlook_shaped (accounts : List AccountIdentifier) (B : AccountIdentifier)
    (hB : B ∈ accounts) (hBo : B.provider = Provider.outlook)
    (aliasAddr w D : List Char)
    (hw : w ≠ []) (hwat : '@' ∉ w)
    (hD : lcLower ('@' :: D) = atOutlook ∨ lcLower ('@' :: D) = atHotmail)
    (hkey : beforePlus w = localOf (lcLower B.email))
    (huniq : ∀ A ∈ accounts, A.provider = Provider.outlook →
        localOf (lcLower A.email) = beforePlus w → A = B)
    (halias : lcLower aliasAddr = w ++ '@' :: D) :
    getBaseEmailFromAlias accounts aliasAddr = some (B.email, Provider.outlook) := by
  have hmatch : matchOutlook (lcLower aliasAddr) = some (w, D) := by
    rw [halias]
    exact matchOutlook_append hw hwat hD
  have hDlen : D.length = 11 := by
    have h12 : atOutlook.length = 12 := by decide
    have h12b : atHotmail.length = 12 := by decide
    rcases hD with he | he
    · have h0 := congrArg List.length he
      rw [h12] at h0
      simp [lcLower] at h0
      omega
    · have h0 := congrArg List.length he
      rw [h12b] at h0
      simp [lcLower] at h0
      omega
  rw [getBaseEmailFromAlias]
  apply findSome?_unique hB
  · obtain ⟨Be, Bp⟩ := B
    simp only at hBo
    subst hBo
    simp only [routeAccount, hmatch]
    rw [if_pos hkey]
  · intro A hA hroute
    obtain ⟨Ae, Ap⟩ := A
    cases Ap with
    | gmail =>
      have hnone : matchGmail (lcLower aliasAddr) = none := by
        rw [halias]
        exact matchGmail_outlookTail hDlen
      simp only [routeAccount, hnone] at hroute
      exact absurd rfl hroute
    | outlook =>
      simp only [routeAccount, hmatch] at hroute
      by_cases hkeyA : beforePlus w
          = localOf (lcLower (⟨Ae, Provider.outlook⟩ : AccountIdentifier).email)
      · exact huniq ⟨Ae, Provider.outlook⟩ hA rfl hkeyA.symm
      · rw [if_neg hkeyA] at hroute
        exact absurd rfl hroute

/-- Any address containing a `+` is classified as an alias. -/
theorem isAliasEmail_of_plus (accounts : List AccountIdentifier) {address : List Char}
    (h : '+' ∈ address) :
    isAliasEmail accounts address = true := by
  have hmem : '+' ∈ lcLower address := (mem_lcLower_nonletter (by decide)).2 h
  simp [isAliasEmail, hmem]

theorem stripDots_lcLower_dotted (L : List Char) (p : Nat) :
    stripDots (lcLower ((stripDots L).take (p + 1) ++ '.' :: (stripDots L).drop (p + 1)))
      = stripDots (lcLower L) := by
  rw [lcLower_append, lcLower_cons]
  have hdot : ('.').toLower = '.' := by decide
  rw [hdot, stripDots_append]
  have h1 : stripDots ('.' :: lcLower ((stripDots L).drop (p + 1)))
      = stripDots (lcLower ((stripDots L).drop (p + 1))) := by
    simp [stripDots]
  rw [h1, ← stripDots_append, ← lcLower_append, List.take_append_drop]
  rw [lcLower_stripDots, stripDots_idem]

theorem gmail_plus_round_trip
    (accounts : List AccountIdentifier) (B : AccountIdentifier) (hB : B ∈ accounts)
    (L S : List Char) (r : Fin 6 → Fin 36)
    (hBg : B.provider = Provider.gmail)
    (hm : matchGmail B.email = some L)
    (hplus : '+' ∉ L)
    (hS : S ≠ []) (hSat : '@' ∉ S)
    (huniq : ∀ A ∈ accounts, A.provider = Provider.gmail →
        stripDots (localOf (lcLower A.email)) = stripDots (lcLower L) → A = B) :
    generateGmailAlias B.email (some S) r
        = some ⟨L ++ '+' :: (S ++ atGmail), B.email, Provider.gmail⟩
    ∧ getBaseEmailFromAlias accounts (L ++ '+' :: (S ++ atGmail))
        = some (B.email, Provider.gmail)
    ∧ isAliasEmail accounts (L ++ '+' :: (S ++ atGmail)) = true := by
  obtain ⟨hdecomp, hlow, hneL, hatL⟩ := matchGmail_some hm
  have hplusLow : '+' ∉ lcLower L := fun h => hplus ((mem_lcLower_nonletter (by decide)).1 h)
  have hatLow : '@' ∉ lcLower L := fun h => hatL ((mem_lcLower_nonletter (by decide)).1 h)
  have hatSLow : '@' ∉ lcLower S := fun h => hSat ((mem_lcLower_nonletter (by decide)).1 h)
  have halias : lcLower (L ++ '+' :: (S ++ atGmail))
      = (lcLower L ++ '+' :: lcLower S) ++ atGmail := by
    rw [lcLower_append, lcLower_cons, lcLower_append, atGmail_lcLower]
    have hp : ('+').toLower = '+' := by decide
    rw [hp]
    simp
  have hw : lcLower L ++ '+' :: lcLower S ≠ [] := by simp
  have hwat : '@' ∉ lcLower L ++ '+' :: lcLower S := by
    intro h
    rcases List.mem_append.1 h with h | h
    · exact hatLow h
    · rcases List.mem_cons.1 h with h | h
      · cases h
      · exact hatSLow h
  have hbp : beforePlus (lcLower L ++ '+' :: lcLower S) = lcLower L :=
    beforePlus_eq hplusLow
  refine ⟨?_, ?_, ?_⟩
  · simp [generateGmailAlias, hm, hS]
  · apply getBase_gmail_shaped accounts B hB hBg _ _ hw hwat
    · rw [hbp, localOf_of_matchGmail hm]
    · intro A hA hAg hAkey
      exact huniq A hA hAg (by rw [← hbp]; exact hAkey)
    · exact halias
  · exact isAliasEmail_of_plus accounts (by simp)

theorem outlook_plus_round_trip
    (accounts : List AccountIdentifier) (B : AccountIdentifier) (hB : B ∈ accounts)
    (L S D : List Char) (r : Fin 6 → Fin 36)
    (hBo : B.provider = Provider.outlook)
    (hm : matchOutlook B.email = some (L, D))
    (hplus : '+' ∉ L)
    (hS : S ≠ []) (hSat : '@' ∉ S)
    (huniq : ∀ A ∈ accounts, A.provider = Provider.outlook →
        localOf (lcLower A.email) = lcLower L → A = B) :
    generateOutlookAlias B.email (some S) r
        = some ⟨L ++ '+' :: (S ++ '@' :: D), B.email, Provider.outlook⟩
    ∧ getBaseEmailFromAlias accounts (L ++ '+' :: (S ++ '@' :: D))
        = some (B.email, Provider.outlook)
    ∧ isAliasEmail accounts (L ++ '+' :: (S ++ '@' :: D)) = true := by
  obtain ⟨hdecomp, hD, hneL, hatL⟩ := matchOutlook_some hm
  have hplusLow : '+' ∉ lcLower L := fun h => hplus ((mem_lcLower_nonletter (by decide)).1 h)
  have hatLow : '@' ∉ lcLower L := fun h => hatL ((mem_lcLower_nonletter (by decide)).1 h)
  have hatSLow : '@' ∉ lcLower S := fun h => hSat ((mem_lcLower_nonletter (by decide)).1 h)
  have hatlow : ('@').toLower = '@' := by decide
  have hcc : lcLower ('@' :: lcLower D) = lcLower ('@' :: D) := by
    rw [lcLower_cons, lcLower_cons, lcLower_idem]
  have halias : lcLower (L ++ '+' :: (S ++ '@' :: D))
      = (lcLower L ++ '+' :: lcLower S) ++ '@' :: lcLower D := by
    rw [lcLower_append, lcLower_cons, lcLower_append, lcLower_cons, hatlow]
    have hp : ('+').toLower = '+' := by decide
    rw [hp]
    simp
  have hw : lcLower L ++ '+' :: lcLower S ≠ [] := by simp
  have hwat : '@' ∉ lcLower L ++ '+' :: lcLower S := by
    intro h
    rcases List.mem_append.1 h with h | h
    · exact hatLow h
    · rcases List.mem_cons.1 h with h | h
      · cases h
      · exact hatSLow h
  have hbp : beforePlus (lcLower L ++ '+' :: lcLower S) = lcLower L :=
    beforePlus_eq hplusLow
  refine ⟨?_, ?_, ?_⟩
  · simp [generateOutlookAlias, hm, hS]
  · apply getBase_outlook_shaped accounts B hB hBo _ _ (lcLower D) hw hwat
    · rw [hcc]
      exact hD
    · rw [hbp, localOf_of_matchOutlook hm]
    · intro A hA hAo hAkey
      exact huniq A hA hAo (by rw [← hbp]; exact hAkey)
    · exact halias
  · exact isAliasEmail_of_plus accounts (by simp)

theorem gmail_dot_round_trip
    (accounts : List AccountIdentifier) (B : AccountIdentifier) (hB : B ∈ accounts)
    (L : List Char) (p : Nat) (r : Fin 6 → Fin 36)
    (hBg : B.provider = Provider.gmail)
    (hm : matchGmail B.email = some L)
    (hplus : '+' ∉ L)
    (hlen2 : 2 ≤ (stripDots L).length)
    (hp : p + 2 ≤ (stripDots L).length)
    (huniq : ∀ A ∈ accounts, A.provider = Provider.gmail →
        stripDots (localOf (lcLower A.email)) = stripDots (lcLower L) → A = B) :
    generateGmailDotAlias B.email p r
        = some ⟨((stripDots L).take (p + 1) ++ '.' :: (stripDots L).drop (p + 1)) ++ atGmail,
            B.email, Provider.gmail⟩
    ∧ getBaseEmailFromAlias accounts
        (((stripDots L).take (p + 1) ++ '.' :: (stripDots L).drop (p + 1)) ++ atGmail)
        = some (B.email, Provider.gmail) := by
  obtain ⟨hdecomp, hlow, hneL, hatL⟩ := matchGmail_some hm
  set dotted := (stripDots L).take (p + 1) ++ '.' :: (stripDots L).drop (p + 1) with hdotted
  have hdne : dotted ≠ [] := by simp [hdotted]
  have hatdot : '@' ∉ dotted := by
    intro h
    rw [hdotted] at h
    rcases List.mem_append.1 h with h | h
    · exact hatL (List.mem_of_mem_filter (List.mem_of_mem_take h))
    · rcases List.mem_cons.1 h with h | h
      · cases h
      · exact hatL (List.mem_of_mem_filter (List.mem_of_mem_drop h))
  have hplusdot : '+' ∉ dotted := by
    intro h
    rw [hdotted] at h
    rcases List.mem_append.1 h with h | h
    · exact hplus (List.mem_of_mem_filter (List.mem_of_mem_take h))
    · rcases List.mem_cons.1 h with h | h
      · cases h
      · exact hplus (List.mem_of_mem_filter (List.mem_of_mem_drop h))
  have hatdotLow : '@' ∉ lcLower dotted :=
    fun h => hatdot ((mem_lcLower_nonletter (by decide)).1 h)
  have hplusdotLow : '+' ∉ lcLower dotted :=
    fun h => hplusdot ((mem_lcLower_nonletter (by decide)).1 h)
  have hdneLow : lcLower dotted ≠ [] := by
    intro h
    have := congrArg List.length h
    rw [lcLower_length] at this
    exact hdne (List.length_eq_zero.1 this)
  have halias : lcLower (dotted ++ atGmail) = lcLower dotted ++ atGmail := by
    rw [lcLower_append, atGmail_lcLower]
  have hkey : stripDots (beforePlus (lcLower dotted)) = stripDots (lcLower L) := by
    rw [beforePlus_all hplusdotLow, hdotted]
    exact stripDots_lcLower_dotted L p
  refine ⟨?_, ?_⟩
  · rw [generateGmailDotAlias, hm]
    simp only
    rw [if_neg (by omega)]
  · apply getBase_gmail_shaped accounts B hB hBg _ _ hdneLow hatdotLow
    · rw [hkey, localOf_of_matchGmail hm]
    · intro A hA hAg hAkey
      apply huniq A hA hAg
      rw [hAkey, hkey]
    · exact halias

/-- **C3 counterexample.** The claim quantifies over *every* plus-alias
generated from a known base. The generator accepts arbitrary caller
suffixes (no validation), so the suffix `x@y` yields the alias
`alice+x@y@gmail.com`, which the router fails to resolve at all (its
regex admits no `@` in the local part): routing does not resolve back
to the base. -/
theorem claim_C3_alias_round_trip_counterexample :
    generateGmailAlias ("alice@gmail.com".toList) (some ("x@y".toList)) (fun _ => 0)
      = some ⟨"alice+x@y@gmail.com".toList, "alice@gmail.com".toList, Provider.gmail⟩
    ∧ getBaseEmailFromAlias [⟨"alice@gmail.com".toList, Provider.gmail⟩]
        ("alice+x@y@gmail.com".toList) = none := by
  constructor
  · decide
  · decide

/-- **C3** (amended). For well-formed inputs — a base local part without
`+`, a nonempty caller suffix without `@`, and a registry in which the
base's canonical key (dot-stripped lowercased local for gmail, lowercased
local for outlook) identifies it uniquely — every generated plus-alias
(gmail and outlook) routes back to its base with `isAlias = true`, and
every generated dot-variant (any interior dot position) routes back to
its gmail base. -/
theorem claim_C3_alias_round_trip
    (accounts : List AccountIdentifier) (B : AccountIdentifier) (hB : B ∈ accounts)
    (L S D : List Char) (p : Nat) (r : Fin 6 → Fin 36)
    (hplus : '+' ∉ L) (hS : S ≠ []) (hSat : '@' ∉ S) :
    (B.provider = Provider.gmail → matchGmail B.email = some L →
      (∀ A ∈ accounts, A.provider = Provider.gmail →
          stripDots (localOf (lcLower A.email)) = stripDots (lcLower L) → A = B) →
      generateGmailAlias B.email (some S) r
          = some ⟨L ++ '+' :: (S ++ atGmail), B.email, Provider.gmail⟩
        ∧ getBaseEmailFromAlias accounts (L ++ '+' :: (S ++ atGmail))
          = some (B.email, Provider.gmail)
        ∧ isAliasEmail accounts (L ++ '+' :: (S ++ atGmail)) = true)
    ∧ (B.provider = Provider.outlook → matchOutlook B.email = some (L, D) →
      (∀ A ∈ accounts, A.provider = Provider.outlook →
          localOf (lcLower A.email) = lcLower L → A = B) →
      generateOutlookAlias B.email (some S) r
          = some ⟨L ++ '+' :: (S ++ '@' :: D), B.email, Provider.outlook⟩
        ∧ getBaseEmailFromAlias accounts (L ++ '+' :: (S ++ '@' :: D))
          = some (B.email, Provider.outlook)
        ∧ isAliasEmail accounts (L ++ '+' :: (S ++ '@' :: D)) = true)
    ∧ (B.provider = Provider.gmail → matchGmail B.email = some L →
      2 ≤ (stripDots L).length → p + 2 ≤ (stripDots L).length →
      (∀ A ∈ accounts, A.provider = Provider.gmail →
          stripDots (localOf (lcLower A.email)) = stripDots (lcLower L) → A = B) →
      generateGmailDotAlias B.email p r
          = some ⟨((stripDots L).take (p + 1) ++ '.' :: (stripDots L).drop (p + 1)) ++ atGmail,
              B.email, Provider.gmail⟩
        ∧ getBaseEmailFromAlias accounts
            (((stripDots L).take (p + 1) ++ '.' :: (stripDots L).drop (p + 1)) ++ atGmail)
          = some (B.email, Provider.gmail)) := by
  refine ⟨?_, ?_, ?_⟩
  · intro hBg hm huniq
    exact gmail_plus_round_trip accounts B hB L S r hBg hm hplus hS hSat huniq
  · intro hBo hm huniq
    exact outlook_plus_round_trip accounts B hB L S D r hBo hm hplus hS hSat huniq
  · intro hBg hm hlen2 hp huniq
    exact gmail_dot_round_trip accounts B hB L p r hBg hm hplus hlen2 hp huniq

/-- Concrete witness for the amended C3: registry with one gmail and one
outlook account; plus-aliases `alice+shop@gmail.com`, `bob+shop@outlook.com`
and dot-variant `al.ice@gmail.com` all route back to their bases. -/
theorem claim_C3_alias_round_trip_witness :
    getBaseEmailFromAlias
        [⟨"alice@gmail.com".toList, Provider.gmail⟩, ⟨"bob@outlook.com".toList, Provider.outlook⟩]
        ("alice+shop@gmail.com".toList)
      = some ("alice@gmail.com".toList, Provider.gmail)
    ∧ isAliasEmail
        [⟨"alice@gmail.com".toList, Provider.gmail⟩, ⟨"bob@outlook.com".toList, Provider.outlook⟩]
        ("alice+shop@gmail.com".toList) = true
    ∧ getBaseEmailFromAlias
        [⟨"alice@gmail.com".toList, Provider.gmail⟩, ⟨"bob@outlook.com".toList, Provider.outlook⟩]
        ("al.ice@gmail.com".toList)
      = some ("alice@gmail.com".toList, Provider.gmail)
    ∧ getBaseEmailFromAlias
        [⟨"alice@gmail.com".toList, Provider.gmail⟩, ⟨"bob@outlook.com".toList, Provider.outlook⟩]
        ("bob+shop@outlook.com".toList)
      = some ("bob@outlook.com".toList, Provider.outlook) := by
  have hg := claim_C3_alias_round_trip
    [⟨"alice@gmail.com".toList, Provider.gmail⟩, ⟨"bob@outlook.com".toList, Provider.outlook⟩]
    ⟨"alice@gmail.com".toList, Provider.gmail⟩ (by decide)
    ("alice".toList) ("shop".toList) ("outlook.com".toList) 1 (fun _ => 0)
    (by decide) (by decide) (by decide)
  have ho := claim_C3_alias_round_trip
    [⟨"alice@gmail.com".toList, Provider.gmail⟩, ⟨"bob@outlook.com".toList, Provider.outlook⟩]
    ⟨"bob@outlook.com".toList, Provider.outlook⟩ (by decide)
    ("bob".toList) ("shop".toList) ("outlook.com".toList) 1 (fun _ => 0)
    (by decide) (by decide) (by decide)
  have h1 := hg.1 rfl (by decide) (by decide)
  have h3 := hg.2.2 rfl (by decide) (by decide) (by decide) (by decide)
  have h2 := ho.2.1 rfl (by decide) (by decide)
  have e1 : "alice".toList ++ '+' :: ("shop".toList ++ atGmail)
      = "alice+shop@gmail.com".toList := by decide
  have e2 : ((stripDots ("alice".toList)).take 2 ++ '.' :: (stripDots ("alice".toList)).drop 2)
      ++ atGmail = "al.ice@gmail.com".toList := by decide
  have e3 : "bob".toList ++ '+' :: ("shop".toList ++ '@' :: "outlook.com".toList)
      = "bob+shop@outlook.com".toList := by decide
  rw [e1] at h1
  rw [e2] at h3
  rw [e3] at h2
  exact ⟨h1.2.1, h1.2.2, h3.2, h2.2.1⟩

/-- `true` on exactly the characters of the class `[a-z0-9]`. -/
def isLowerAlnum (c : Char) : Bool :=
  (97 ≤ c.toNat && c.toNat ≤ 122) || (48 ≤ c.toNat && c.toNat ≤ 57)

/-- Modelled from the spec: the validation regex `[a-z0-9_]{2,}` that the
spec claims is applied to caller-supplied gmail suffixes (no such check
exists in email-alias.ts). -/
def specValidSuffix (s : List Char) : Bool :=
  decide (2 ≤ s.length) && s.all (fun c => isLowerAlnum c || c = '_')

/-- **C4 counterexample.** The suffix `!!` does not match `[a-z0-9_]{2,}`,
yet `generateGmailAlias` accepts it verbatim into the alias: no validation
of the caller-supplied suffix is performed. -/
theorem claim_C4_suffix_validation_counterexample :
    specValidSuffix ("!!".toList) = false
    ∧ generateGmailAlias ("alice@gmail.com".toList) (some ("!!".toList)) (fun _ => 0)
      = some ⟨"alice+!!@gmail.com".toList, "alice@gmail.com".toList, Provider.gmail⟩ := by
  constructor
  · decide
  · decide

/-- **C4** (amended). A caller-supplied suffix is used verbatim whenever it
is nonempty — no validation against `[a-z0-9_]{2,}` happens; an absent or
empty suffix is replaced by the generated random suffix, which consists of
exactly 6 lowercase alphanumeric characters. -/
theorem claim_C4_suffix_rules (base localPart : List Char) (r : Fin 6 → Fin 36)
    (hm : matchGmail base = some localPart) :
    (generateGmailAlias base none r
        = some ⟨localPart ++ '+' :: (generateRandomSuffix r ++ atGmail), base, Provider.gmail⟩)
    ∧ (generateGmailAlias base (some []) r
        = some ⟨localPart ++ '+' :: (generateRandomSuffix r ++ atGmail), base, Provider.gmail⟩)
    ∧ (generateRandomSuffix r).length = 6
    ∧ (∀ c ∈ generateRandomSuffix r, isLowerAlnum c = true)
    ∧ (∀ s : List Char, s ≠ [] →
        generateGmailAlias base (some s) r
          = some ⟨localPart ++ '+' :: (s ++ atGmail), base, Provider.gmail⟩) := by
  refine ⟨?_, ?_, ?_, ?_, ?_⟩
  · simp [generateGmailAlias, hm]
  · simp [generateGmailAlias, hm]
  · simp [generateRandomSuffix]
  · intro c hc
    rw [generateRandomSuffix] at hc
    rcases (List.mem_ofFn _ c).1 hc with ⟨i, hi⟩
    have hmem : c ∈ suffixChars := by
      rw [← hi]
      exact List.get_mem suffixChars _ _
    have hall : ∀ x ∈ suffixChars, isLowerAlnum x = true := by decide
    exact hall c hmem
  · intro s hs
    simp [generateGmailAlias, hm, hs]

/-- Concrete witness for C4: base `alice@gmail.com`, draws all zero, custom
suffix `A!` (not matching the class) accepted verbatim. -/
theorem claim_C4_suffix_rules_witness :
    generateGmailAlias ("alice@gmail.com".toList) none (fun _ => 0)
        = some ⟨"alice+aaaaaa@gmail.com".toList, "alice@gmail.com".toList, Provider.gmail⟩
    ∧ (generateRandomSuffix (fun _ => 0)).length = 6
    ∧ generateGmailAlias ("alice@gmail.com".toList) (some ("A!".toList)) (fun _ => 0)
        = some ⟨"alice+A!@gmail.com".toList, "alice@gmail.com".toList, Provider.gmail⟩ := by
  have h := claim_C4_suffix_rules ("alice@gmail.com".toList) ("alice".toList)
    (fun _ => 0) (by decide)
  refine ⟨?_, h.2.2.1, ?_⟩
  · have e : "alice".toList ++ '+' :: (generateRandomSuffix (fun _ => 0) ++ atGmail)
        = "alice+aaaaaa@gmail.com".toList := by decide
    rw [← e]
    exact h.1
  · have h5 := h.2.2.2.2 ("A!".toList) (by decide)
    have e : "alice".toList ++ '+' :: ("A!".toList ++ atGmail)
        = "alice+A!@gmail.com".toList := by decide
    rw [← e]
    exact h5

/-! ### Message ids (email-service.ts line 526; multi-account service line 777) -/

/-- Single-account pipeline: ``parsed.messageId || `uid-${uid}` `` (an
absent or empty Message-Id falls back to `uid-<uid>`). -/
def emailIdSingle (messageId : Option (List Char)) (uid : Nat) : List Char :=
  match messageId with
  | some m => if m = [] then "uid-".toList ++ (Nat.repr uid).toList else m
  | none => "uid-".toList ++ (Nat.repr uid).toList

/-- Provider pipeline: ``parsed.messageId || `uid-${account.email}-${uid}` ``. -/
def emailIdProvider (accountEmail : List Char) (messageId : Option (List Char))
    (uid : Nat) : List Char :=
  match messageId with
  | some m => if m = [] then "uid-".toList ++ accountEmail ++ '-' :: (Nat.repr uid).toList else m
  | none => "uid-".toList ++ accountEmail ++ '-' :: (Nat.repr uid).toList

/-- **C5 counterexample.** In the single-account pipeline the fallback id of
the message with uid 42 is `uid-42`: it does not contain the backend
mailbox identifier (no `@` at all), contrary to the claimed
`uid-<backend>-<uid>` shape, which only the provider pipeline produces. -/
theorem claim_C5_message_id_counterexample :
    emailIdSingle none 42 = "uid-42".toList
    ∧ '@' ∉ emailIdSingle none 42
    ∧ '@' ∈ "catch@example.com".toList
    ∧ emailIdProvider ("catch@example.com".toList) none 42 = "uid-catch@example.com-42".toList
    ∧ emailIdSingle none 42 ≠ emailIdProvider ("catch@example.com".toList) none 42 := by
  refine ⟨by decide, by decide, by decide, by decide, by decide⟩

/-- **C5** (amended). Both pipelines use the RFC 5322 Message-Id when it is
present (and nonempty); otherwise the provider pipeline falls back to
`uid-<backend>-<uid>` while the single-account pipeline falls back to
`uid-<uid>`, which contains only the uid, not the backend identifier. -/
theorem claim_C5_message_id (m accountEmail : List Char) (uid : Nat) (hm : m ≠ []) :
    emailIdSingle (some m) uid = m
    ∧ emailIdProvider accountEmail (some m) uid = m
    ∧ emailIdSingle none uid = "uid-".toList ++ (Nat.repr uid).toList
    ∧ emailIdProvider accountEmail none uid
        = "uid-".toList ++ accountEmail ++ '-' :: (Nat.repr uid).toList := by
  refine ⟨?_, ?_, rfl, rfl⟩
  · simp [emailIdSingle, hm]
  · simp [emailIdProvider, hm]

/-- Concrete witness for C5 at Message-Id `<abc@mail>` and uid 7. -/
theorem claim_C5_message_id_witness :
    emailIdSingle (some ("<abc@mail>".toList)) 7 = "<abc@mail>".toList
    ∧ emailIdProvider ("a@gmail.com".toList) none 7 = "uid-a@gmail.com-7".toList := by
  have h := claim_C5_message_id ("<abc@mail>".toList) ("a@gmail.com".toList) 7 (by decide)
  refine ⟨h.1, ?_⟩
  have e : "uid-".toList ++ "a@gmail.com".toList ++ '-' :: (Nat.repr 7).toList
      = "uid-a@gmail.com-7".toList := by decide
  rw [← e]
  exact h.2.2.2

/-! ### Admission queue (RequestQueue, email-service.ts lines 115-242;
ProviderRequestQueue, multi-account service, is identical up to the
constructor constants). -/

def maxRetries : Nat := 3

structure QueuedRequest where
  retryCount : Nat
  addedAt : Nat
deriving DecidableEq

structure RequestQueue where
  queue : List QueuedRequest
  activeConnections : Nat
  maxConnections : Nat
  requestsPerSecond : Nat
  requestTimestamps : List Nat
  rateLimitedUntil : Nat
  consecutiveFailures : Nat
deriving DecidableEq

/-- `setRateLimited` (lines 140-143): `rateLimitedUntil = Date.now() + retryAfterSeconds*1000`. -/
def RequestQueue.setRateLimited (q : RequestQueue) (now retryAfterSeconds : Nat) : RequestQueue :=
  { q with rateLimitedUntil := now + retryAfterSeconds * 1000 }

inductive QueueDecision where
  | idle
  | atCapacity
  | cooldown (resumeIn : Nat)
  | throttled
  | backoff
  | dispatch (req : QueuedRequest)
deriving DecidableEq

def QueueDecision.isDispatch : QueueDecision → Bool
  | QueueDecision.dispatch _ => true
  | _ => false

/-- The synchronous body of `processQueue` (lines 168-200) up to the point
where the popped request starts executing: the guard chain is (1) empty
queue, (2) at capacity, (3) rate-limit cooldown with a reschedule of
`min(waitTime + 100, 5000)`, (4) per-second window (which prunes the
timestamp list as a side effect of `isRateLimited`), (5) exponential
backoff when there are consecutive failures; otherwise the head request is
popped, `activeConnections` is incremented and the start timestamp
recorded. -/
def RequestQueue.processStep (q : RequestQueue) (now : Nat) : QueueDecision × RequestQueue :=
  if q.queue = [] then (QueueDecision.idle, q)
  else if q.maxConnections ≤ q.activeConnections then (QueueDecision.atCapacity, q)
  else if now < q.rateLimitedUntil then
    (QueueDecision.cooldown (min (q.rateLimitedUntil - now + 100) 5000), q)
  else
    let filtered := q.requestTimestamps.filter (fun t => decide (now - t < 1000))
    if q.requestsPerSecond ≤ filtered.length then
      (QueueDecision.throttled, { q with requestTimestamps := filtered })
    else if 0 < q.consecutiveFailures then
      (QueueDecision.backoff, { q with requestTimestamps := filtered })
    else
      match q.queue with
      | [] => (QueueDecision.idle, q)
      | req :: rest =>
        (QueueDecision.dispatch req,
          { q with queue := rest,
                   activeConnections := q.activeConnections + 1,
                   requestTimestamps := filtered ++ [now] })

inductive CompletionOutcome where
  | resolved
  | retried
  | rejected
deriving DecidableEq

/-- The completion part of `processQueue` (lines 202-222): on success the
failure counter resets and the caller is resolved; on failure the counter
is incremented, and the request is pushed back to the *front* of the queue
with `retryCount + 1` when `retryCount < maxRetries`, else the caller is
rejected; `activeConnections` is always decremented. -/
def RequestQueue.completeStep (q : RequestQueue) (req : QueuedRequest) (success : Bool) :
    CompletionOutcome × RequestQueue :=
  if success then
    (CompletionOutcome.resolved,
      { q with consecutiveFailures := 0, activeConnections := q.activeConnections - 1 })
  else if req.retryCount < maxRetries then
    (CompletionOutcome.retried,
      { q with consecutiveFailures := q.consecutiveFailures + 1,
               queue := { req with retryCount := req.retryCount + 1 } :: q.queue,
               activeConnections := q.activeConnections - 1 })
  else
    (CompletionOutcome.rejected,
      { q with consecutiveFailures := q.consecutiveFailures + 1,
               activeConnections := q.activeConnections - 1 })

/-- The retry loop a single enqueued request goes through: attempt `k`; on
failure, retry while the remaining budget `b` (initially `maxRetries`)
allows, else surface the last error. -/
def runWithRetries {ε α : Type} (attempts : Nat → Except ε α) : Nat → Nat → Except ε α
  | k, 0 => attempts k
  | k, Nat.succ b =>
    match attempts k with
    | Except.ok v => Except.ok v
    | Except.error _ => runWithRetries attempts (k + 1) b

/-- Number of executions the retry loop performs. -/
def usedAttempts {ε α : Type} (attempts : Nat → Except ε α) : Nat → Nat → Nat
  | _, 0 => 1
  | k, Nat.succ b =>
    match attempts k with
    | Except.ok _ => 1
    | Except.error _ => 1 + usedAttempts attempts (k + 1) b

theorem usedAttempts_le {ε α : Type} (attempts : Nat → Except ε α) (k b : Nat) :
    usedAttempts attempts k b ≤ b + 1 := by
  induction b generalizing k with
  | zero => simp [usedAttempts]
  | succ b ih =>
    rw [usedAttempts]
    cases attempts k with
    | ok v => simp
    | error e =>
      simp only
      have := ih (k + 1)
      omega

/-- **C6.** Failure handling of a dispatched work item: on failure the
consecutive-failure counter is incremented; when `retryCount < 3` the item
is pushed back to the *head* of the queue with `retryCount + 1` (so it is
retried before other pending items); otherwise the caller is rejected and
the queue is untouched; consequently a single enqueued item is executed at
most `maxRetries + 1 = 4` times. -/
theorem claim_C6_retry_policy (q : RequestQueue) (req : QueuedRequest)
    {ε α : Type} (attempts : Nat → Except ε α) :
    ((q.completeStep req false).2.consecutiveFailures = q.consecutiveFailures + 1)
    ∧ (req.retryCount < 3 →
        (q.completeStep req false).1 = CompletionOutcome.retried
        ∧ (q.completeStep req false).2.queue
            = { req with retryCount := req.retryCount + 1 } :: q.queue)
    ∧ (3 ≤ req.retryCount →
        (q.completeStep req false).1 = CompletionOutcome.rejected
        ∧ (q.completeStep req false).2.queue = q.queue)
    ∧ usedAttempts attempts 0 maxRetries ≤ 4 := by
  refine ⟨?_, ?_, ?_, ?_⟩
  · rw [RequestQueue.completeStep]
    by_cases h : req.retryCount < maxRetries <;> simp [h]
  · intro h
    have h3 : req.retryCount < maxRetries := h
    constructor <;> simp [RequestQueue.completeStep, h3]
  · intro h
    have h3 : ¬ req.retryCount < maxRetries := by
      rw [maxRetries]
      omega
    constructor <;> simp [RequestQueue.completeStep, h3]
  · exact usedAttempts_le attempts 0 maxRetries

/-- Concrete witness for C6: a queue with one pending item; a failed item
with `retryCount = 1` goes back to the head with `retryCount = 2`; a failed
item with `retryCount = 3` is rejected; an always-failing request is
executed exactly 4 times. -/
theorem claim_C6_retry_policy_witness :
    ((⟨[⟨0, 5⟩], 1, 3, 5, [], 0, 0⟩ : RequestQueue).completeStep ⟨1, 2⟩ false).2.consecutiveFailures = 1
    ∧ ((⟨[⟨0, 5⟩], 1, 3, 5, [], 0, 0⟩ : RequestQueue).completeStep ⟨1, 2⟩ false).2.queue
        = [⟨2, 2⟩, ⟨0, 5⟩]
    ∧ ((⟨[⟨0, 5⟩], 1, 3, 5, [], 0, 0⟩ : RequestQueue).completeStep ⟨3, 2⟩ false).1
        = CompletionOutcome.rejected
    ∧ usedAttempts (fun _ => (Except.error () : Except Unit Nat)) 0 maxRetries = 4 := by
  have h1 := claim_C6_retry_policy (⟨[⟨0, 5⟩], 1, 3, 5, [], 0, 0⟩ : RequestQueue) ⟨1, 2⟩
    (fun _ => (Except.error () : Except Unit Nat))
  have h2 := claim_C6_retry_policy (⟨[⟨0, 5⟩], 1, 3, 5, [], 0, 0⟩ : RequestQueue) ⟨3, 2⟩
    (fun _ => (Except.error () : Except Unit Nat))
  refine ⟨h1.1, ?_, (h2.2.2.1 (by decide)).1, by decide⟩
  have := (h1.2.1 (by decide)).2
  simpa using this

/-- **C7.** `setRateLimited(S)` at time `t0` sets `cooldownUntil` to
`t0 + S` seconds, and at any instant strictly before it the driver
dispatches nothing and leaves the whole queue state (queue, activeCount,
recorded timestamps) unchanged. -/
theorem claim_C7_rate_limit_cooldown (q : RequestQueue) (t0 S now : Nat)
    (hnow : now < t0 + S * 1000) :
    (q.setRateLimited t0 S).rateLimitedUntil = t0 + S * 1000
    ∧ ((q.setRateLimited t0 S).processStep now).1.isDispatch = false
    ∧ ((q.setRateLimited t0 S).processStep now).2 = q.setRateLimited t0 S := by
  refine ⟨rfl, ?_, ?_⟩
  · rw [RequestQueue.processStep]
    by_cases h1 : (q.setRateLimited t0 S).queue = []
    · simp [h1, QueueDecision.isDispatch]
    · by_cases h2 : (q.setRateLimited t0 S).maxConnections
          ≤ (q.setRateLimited t0 S).activeConnections
      · simp [h1, h2, QueueDecision.isDispatch]
      · have h3 : now < (q.setRateLimited t0 S).rateLimitedUntil := hnow
        simp [h1, h2, h3, QueueDecision.isDispatch]
  · rw [RequestQueue.processStep]
    by_cases h1 : (q.setRateLimited t0 S).queue = []
    · simp [h1]
    · by_cases h2 : (q.setRateLimited t0 S).maxConnections
          ≤ (q.setRateLimited t0 S).activeConnections
      · simp [h1, h2]
      · have h3 : now < (q.setRateLimited t0 S).rateLimitedUntil := hnow
        simp [h1, h2, h3]

/-- Concrete witness for C7: `setRateLimited(5)` at `t0 = 1000` yields
`cooldownUntil = 6000`; at `now = 3000` (with a nonempty queue and free
capacity) nothing is dispatched and the state is untouched. -/
theorem claim_C7_rate_limit_cooldown_witness :
    ((⟨[⟨0, 5⟩], 0, 3, 5, [], 0, 0⟩ : RequestQueue).setRateLimited 1000 5).rateLimitedUntil = 6000
    ∧ (((⟨[⟨0, 5⟩], 0, 3, 5, [], 0, 0⟩ : RequestQueue).setRateLimited 1000 5).processStep 3000).1.isDispatch
        = false
    ∧ (((⟨[⟨0, 5⟩], 0, 3, 5, [], 0, 0⟩ : RequestQueue).setRateLimited 1000 5).processStep 3000).2
        = (⟨[⟨0, 5⟩], 0, 3, 5, [], 0, 0⟩ : RequestQueue).setRateLimited 1000 5 :=
  claim_C7_rate_limit_cooldown (⟨[⟨0, 5⟩], 0, 3, 5, [], 0, 0⟩ : RequestQueue) 1000 5 3000
    (by decide)

/-! ### The fetch pipeline's error behaviour (fetchEmails,
email-service.ts lines 399-590). One execution of the queued closure ends
in exactly one of these events; `E` is the parsed-message record type. -/

inductive ImapFetchEvent (E : Type) where
  | cacheHit (emails : List E)
  | credsMissing
  | connTimeout
  | connError
  | openBoxError
  | boxEmpty
  | searchError
  | searchEmpty
  | fetchError
  | fetched (emails : List E)
deriving DecidableEq

/-- How one execution resolves (email-service.ts): the in-slot cache
double-check returns the cached list (line 412); missing credentials
resolve `[]` (line 415); the 15 s connection timeout resolves `[]`
(line 449); the connection `error` event resolves `[]` (line 582,
"graceful degradation"); an empty box or empty search resolve `[]`
(lines 463, 479); `openBox`, `search` and `fetch` errors reject
(lines 459, 475, 567); a parsed batch resolves it. -/
def attemptResult {E : Type} : ImapFetchEvent E → Except Unit (List E)
  | ImapFetchEvent.cacheHit es => Except.ok es
  | ImapFetchEvent.credsMissing => Except.ok []
  | ImapFetchEvent.connTimeout => Except.ok []
  | ImapFetchEvent.connError => Except.ok []
  | ImapFetchEvent.openBoxError => Except.error ()
  | ImapFetchEvent.boxEmpty => Except.ok []
  | ImapFetchEvent.searchError => Except.error ()
  | ImapFetchEvent.searchEmpty => Except.ok []
  | ImapFetchEvent.fetchError => Except.error ()
  | ImapFetchEvent.fetched es => Except.ok es

/-- `fetchEmails` as seen by its caller: a cache hit returns immediately;
otherwise the closure runs under the queue's retry loop (up to
`maxRetries` retries after the first execution). -/
def fetchEmailsResult {E : Type} (cached : Option (List E))
    (events : Nat → ImapFetchEvent E) : Except Unit (List E) :=
  match cached with
  | some es => Except.ok es
  | none => runWithRetries (fun k => attemptResult (events k)) 0 maxRetries

theorem runWithRetries_error_iff {ε α : Type} (f : Nat → Except ε α) (k b : Nat) :
    (∃ e, runWithRetries f k b = Except.error e) ↔ ∀ j ≤ b, ∃ e, f (k + j) = Except.error e := by
  induction b generalizing k with
  | zero =>
    rw [runWithRetries]
    constructor
    · rintro ⟨e, he⟩ j hj
      interval_cases j
      exact ⟨e, he⟩
    · intro h
      simpa using h 0 (by omega)
  | succ b ih =>
    rw [runWithRetries]
    cases hk : f k with
    | ok v =>
      simp only
      constructor
      · rintro ⟨e, he⟩
        cases he
      · intro h
        rcases h 0 (by omega) with ⟨e, he⟩
        rw [Nat.add_zero] at he
        rw [hk] at he
        cases he
    | error e =>
      simp only
      rw [ih (k + 1)]
      constructor
      · intro h j hj
        cases j with
        | zero => exact ⟨e, by simpa using hk⟩
        | succ j =>
          have := h j (by omega)
          rw [show k + 1 + j = k + (j + 1) from by omega] at this
          exact this
      · intro h j hj
        have := h (j + 1) (by omega)
        rw [show k + (j + 1) = k + 1 + j from by omega] at this
        exact this

/-- **C1.** The read path never propagates connection failures, timeouts,
missing credentials or empty results: those all resolve (with the cached
list or `[]`); an error reaches the caller exactly when the cache missed
and all `maxRetries + 1` executions ended in one of the three rejecting
events (`openBox`, `search`, `fetch` errors). -/
theorem claim_C1_fetch_never_throws {E : Type} (cached : Option (List E))
    (events : Nat → ImapFetchEvent E) :
    ((∃ e, fetchEmailsResult cached events = Except.error e)
      ↔ (cached = none ∧ ∀ k ≤ maxRetries, attemptResult (events k) = Except.error ()))
    ∧ (∀ k, attemptResult (events k) = Except.error () →
        events k = ImapFetchEvent.openBoxError ∨ events k = ImapFetchEvent.searchError
          ∨ events k = ImapFetchEvent.fetchError)
    ∧ attemptResult (ImapFetchEvent.connError : ImapFetchEvent E) = Except.ok []
    ∧ attemptResult (ImapFetchEvent.connTimeout : ImapFetchEvent E) = Except.ok []
    ∧ attemptResult (ImapFetchEvent.credsMissing : ImapFetchEvent E) = Except.ok []
    ∧ (∀ es, cached = some es → fetchEmailsResult cached events = Except.ok es) := by
  refine ⟨?_, ?_, rfl, rfl, rfl, ?_⟩
  · cases cached with
    | some es =>
      constructor
      · rintro ⟨e, he⟩
        cases he
      · rintro ⟨h, _⟩
        cases h
    | none =>
      rw [fetchEmailsResult]
      rw [runWithRetries_error_iff]
      constructor
      · intro h
        refine ⟨rfl, fun k hk => ?_⟩
        rcases h k (by simpa using hk) with ⟨e, he⟩
        rw [Nat.zero_add] at he
        exact he
      · rintro ⟨-, h⟩ j hj
        exact ⟨(), by rw [Nat.zero_add]; exact h j hj⟩
  · intro k h
    cases hev : events k <;> rw [hev] at h <;> simp_all [attemptResult]
  · intro es h
    subst h
    rfl

/-- Concrete witness for C1: with an empty cache and every execution
failing in `openBox`, the error surfaces; a cache hit resolves that value
even when every execution would fail. -/
theorem claim_C1_fetch_never_throws_witness :
    (∃ e, fetchEmailsResult (E := Nat) none (fun _ => ImapFetchEvent.openBoxError)
        = Except.error e)
    ∧ fetchEmailsResult (E := Nat) (some [5]) (fun _ => ImapFetchEvent.openBoxError)
        = Except.ok [5] := by
  constructor
  · exact (claim_C1_fetch_never_throws (E := Nat) none
      (fun _ => ImapFetchEvent.openBoxError)).1.2 ⟨rfl, fun k _ => rfl⟩
  · exact (claim_C1_fetch_never_throws (E := Nat) (some [5])
      (fun _ => ImapFetchEvent.openBoxError)).2.2.2.2.2 [5] rfl

/-! ### Provider fetch and visibility filtering
(fetchProviderEmails, multi-account service lines 843-900). -/

structure RawMessage where
  toAddr : List Char
  date : Nat
deriving DecidableEq

structure ProviderEmailRec where
  toAddr : List Char
  date : Nat
  isAlias : Bool
deriving DecidableEq

/-- `fetchEmailsFromAccount` computes `isAlias = isAliasEmail(toAddress)`
(line 778). -/
def mkProviderEmail (accounts : List AccountIdentifier) (m : RawMessage) : ProviderEmailRec :=
  ⟨m.toAddr, m.date, isAliasEmail accounts m.toAddr⟩

/-- The view-cache key `` `${targetAddress || "all"}-${isLoggedIn}` ``
(line 847). -/
def viewKey (target : Option (List Char)) (isLoggedIn : Bool) : List Char :=
  (match target with
   | some t => if t = [] then "all".toList else t
   | none => "all".toList)
  ++ (if isLoggedIn then "-true".toList else "-false".toList)

theorem viewKey_suffix_ne (t1 t2 : List Char) :
    t1 ++ "-true".toList ≠ t2 ++ "-false".toList := by
  intro h
  have h2 := congrArg List.reverse h
  rw [List.reverse_append, List.reverse_append] at h2
  have e1 : "-true".toList.reverse = 'e' :: 'u' :: 'r' :: 't' :: '-' :: [] := by decide
  have e2 : "-false".toList.reverse = 'e' :: 's' :: 'l' :: 'a' :: 'f' :: '-' :: [] := by decide
  rw [e1, e2] at h2
  simp only [List.cons_append] at h2
  injection h2 with ha hb
  injection hb with hc hd
  exact absurd hc (by decide)

/-- `fetchProviderEmails`: look up the per-(address, viewer) view cache; on
a miss, bail out with `[]` when no accounts are configured, else take the
union of the per-account results, drop non-aliases for anonymous viewers,
sort by date descending, truncate to 30, cache, return. The union of the
per-backend IMAP results is supplied as `raws`. -/
def fetchProviderEmails (cache : LRUCache (List Char) (List ProviderEmailRec))
    (now : Nat) (target : Option (List Char)) (isLoggedIn : Bool)
    (accounts : List AccountIdentifier) (raws : List RawMessage) :
    List ProviderEmailRec × LRUCache (List Char) (List ProviderEmailRec) :=
  match cache.get now (viewKey target isLoggedIn) with
  | (some cachedList, cache1) => (cachedList, cache1)
  | (none, cache1) =>
    if accounts = [] then ([], cache1)
    else
      let allEmails := raws.map (mkProviderEmail accounts)
      let visible := if isLoggedIn then allEmails
        else allEmails.filter (fun e => e.isAlias)
      let limited := (List.insertionSort (fun a b => b.date ≤ a.date) visible).take 30
      (limited, cache1.set now (viewKey target isLoggedIn) limited)

/-- A view-cache key written by an anonymous request. -/
def anonKey (k : List Char) : Prop := ∃ t, k = t ++ "-false".toList

/-- Every anonymous view-cache entry holds only alias messages. -/
def anonSafe (cache : LRUCache (List Char) (List ProviderEmailRec)) : Prop :=
  ∀ e ∈ cache.entries, anonKey e.1 → ∀ m ∈ e.2.1, m.isAlias = true

/-- Every cached message's `isAlias` field is the router's classification
of its `to` address. -/
def wellFormed (accounts : List AccountIdentifier)
    (cache : LRUCache (List Char) (List ProviderEmailRec)) : Prop :=
  ∀ e ∈ cache.entries, ∀ m ∈ e.2.1, m.isAlias = isAliasEmail accounts m.toAddr

theorem LRUCache.get_entries_subset {K V : Type} [DecidableEq K]
    (c : LRUCache K V) (now : Nat) (k : K) :
    ∀ e ∈ (c.get now k).2.entries, e ∈ c.entries := by
  intro e he
  cases hf : c.entries.find? (fun x => decide (x.1 = k)) with
  | none =>
    simp only [LRUCache.get, hf] at he
    exact he
  | some e0 =>
    by_cases ht : c.ttl < now - e0.2.2
    · simp only [LRUCache.get, hf, if_pos ht] at he
      exact List.mem_of_mem_filter he
    · simp only [LRUCache.get, hf, if_neg ht, List.mem_append, List.mem_singleton] at he
      rcases he with he | he
      · exact List.mem_of_mem_filter he
      · rw [he]
        exact List.mem_of_find?_eq_some hf

theorem LRUCache.set_entries_cases {K V : Type} [DecidableEq K]
    (c : LRUCache K V) (now : Nat) (k : K) (v : V) :
    ∀ e ∈ (c.set now k v).entries, e ∈ c.entries ∨ e = (k, v, now) := by
  intro e he
  rw [LRUCache.set] at he
  by_cases h1 : c.entries.any (fun x => decide (x.1 = k))
  · rw [if_pos h1] at he
    simp only [List.mem_append, List.mem_singleton] at he
    rcases he with he | he
    · exact Or.inl (List.mem_of_mem_filter he)
    · exact Or.inr he
  · rw [if_neg h1] at he
    by_cases h2 : c.maxSize ≤ c.entries.length
    · rw [if_pos h2] at he
      simp only [List.mem_append, List.mem_singleton] at he
      rcases he with he | he
      · exact Or.inl (List.mem_of_mem_tail he)
      · exact Or.inr he
    · rw [if_neg h2] at he
      simp only [List.mem_append, List.mem_singleton] at he
      rcases he with he | he
      · exact Or.inl he
      · exact Or.inr he

/-- A cache hit returns the value of an entry stored under that key. -/
theorem LRUCache.get_some_mem {K V : Type} [DecidableEq K]
    {c : LRUCache K V} {now : Nat} {k : K} {v : V}
    (h : (c.get now k).1 = some v) :
    ∃ ts, (k, v, ts) ∈ c.entries := by
  cases hf : c.entries.find? (fun x => decide (x.1 = k)) with
  | none =>
    simp only [LRUCache.get, hf] at h
    cases h
  | some e0 =>
    by_cases ht : c.ttl < now - e0.2.2
    · simp only [LRUCache.get, hf, if_pos ht] at h
      cases h
    · simp only [LRUCache.get, hf, if_neg ht] at h
      injection h with h
      have hk : e0.1 = k := by
        have := List.find?_some hf
        simpa using this
      refine ⟨e0.2.2, ?_⟩
      have hmem := List.mem_of_find?_eq_some hf
      have : e0 = (k, v, e0.2.2) := by
        rcases e0 with ⟨k0, v0, t0⟩
        simp only at hk h
        rw [hk, h]
      rw [← this]
      exact hmem

/-- A message in the anonymous fresh result list is one of the fetched
messages, classified, with `isAlias = true`. -/
theorem mem_visible_anon {accounts : List AccountIdentifier} {raws : List RawMessage}
    {m : ProviderEmailRec}
    (hm : m ∈ (List.insertionSort (fun a b => b.date ≤ a.date)
        ((raws.map (mkProviderEmail accounts)).filter (fun e => e.isAlias))).take 30) :
    m.isAlias = true ∧ m.isAlias = isAliasEmail accounts m.toAddr := by
  have h1 := List.mem_of_mem_take hm
  have h2 := (List.perm_insertionSort
    (fun a b : ProviderEmailRec => b.date ≤ a.date) _).mem_iff.1 h1
  have h3 := List.mem_filter.1 h2
  rcases List.mem_map.1 h3.1 with ⟨raw, hraw, hmk⟩
  refine ⟨h3.2, ?_⟩
  rw [← hmk]
  rfl

/-- A message in the logged-in fresh result list is a classified fetched
message. -/
theorem mem_visible_auth {accounts : List AccountIdentifier} {raws : List RawMessage}
    {m : ProviderEmailRec}
    (hm : m ∈ (List.insertionSort (fun a b => b.date ≤ a.date)
        (raws.map (mkProviderEmail accounts))).take 30) :
    m.isAlias = isAliasEmail accounts m.toAddr := by
  have h1 := List.mem_of_mem_take hm
  have h2 := (List.perm_insertionSort
    (fun a b : ProviderEmailRec => b.date ≤ a.date) _).mem_iff.1 h1
  rcases List.mem_map.1 h2 with ⟨raw, hraw, hmk⟩
  rw [← hmk]
  rfl

/-- An address equal (lowercased) to some account's own `+`-free address is
not an alias. -/
theorem isAliasEmail_own_address {accounts : List AccountIdentifier} {addr : List Char}
    {A : AccountIdentifier} (hA : A ∈ accounts)
    (heq : lcLower A.email = lcLower addr) (hplus : '+' ∉ lcLower addr) :
    isAliasEmail accounts addr = false := by
  simp only [isAliasEmail]
  have hany : accounts.any (fun a => decide (lcLower a.email = lcLower addr)) = true := by
    rw [List.any_eq_true]
    exact ⟨A, hA, by simpa using heq⟩
  rw [if_neg hplus, if_pos hany]

theorem anonSafe_mono {c1 c2 : LRUCache (List Char) (List ProviderEmailRec)}
    (hsub : ∀ e ∈ c1.entries, e ∈ c2.entries) (h : anonSafe c2) : anonSafe c1 :=
  fun e he hk => h e (hsub e he) hk

theorem wellFormed_mono {accounts : List AccountIdentifier}
    {c1 c2 : LRUCache (List Char) (List ProviderEmailRec)}
    (hsub : ∀ e ∈ c1.entries, e ∈ c2.entries) (h : wellFormed accounts c2) :
    wellFormed accounts c1 :=
  fun e he => h e (hsub e he)

theorem anonKey_viewKey (target : Option (List Char)) : anonKey (viewKey target false) := by
  refine ⟨(match target with
    | some t => if t = [] then "all".toList else t
    | none => "all".toList), ?_⟩
  rfl

theorem not_anonKey_viewKey_true (target : Option (List Char)) :
    ¬ anonKey (viewKey target true) := by
  rintro ⟨t, ht⟩
  rw [viewKey.eq_def] at ht
  exact viewKey_suffix_ne _ t ht

/-- **C2** (amended). For an anonymous viewer, every message returned by
`fetchProviderEmails` — freshly fetched or served from the view cache —
has `isAlias = true`, and no returned message is addressed (lowercased)
to the own address of a registered account whose address is `+`-free;
moreover both runs (anonymous and authenticated) preserve the cache
invariants, so anonymous cache entries only ever hold alias messages. -/
theorem claim_C2_anonymous_alias_only
    (cache : LRUCache (List Char) (List ProviderEmailRec)) (now : Nat)
    (target : Option (List Char)) (accounts : List AccountIdentifier)
    (raws : List RawMessage)
    (hinv : anonSafe cache) (hwf : wellFormed accounts cache) :
    (∀ m ∈ (fetchProviderEmails cache now target false accounts raws).1,
        m.isAlias = true ∧ m.isAlias = isAliasEmail accounts m.toAddr)
    ∧ (∀ m ∈ (fetchProviderEmails cache now target false accounts raws).1,
        ∀ A ∈ accounts, '+' ∉ lcLower A.email → lcLower m.toAddr ≠ lcLower A.email)
    ∧ (∀ b, anonSafe (fetchProviderEmails cache now target b accounts raws).2
        ∧ wellFormed accounts (fetchProviderEmails cache now target b accounts raws).2) := by
  have hmain : ∀ m ∈ (fetchProviderEmails cache now target false accounts raws).1,
      m.isAlias = true ∧ m.isAlias = isAliasEmail accounts m.toAddr := by
    intro m hm
    cases hget : cache.get now (viewKey target false) with
    | mk o cache1 =>
      cases o with
      | some cachedList =>
        simp only [fetchProviderEmails, hget] at hm
        have hfst : (cache.get now (viewKey target false)).1 = some cachedList := by
          rw [hget]
        rcases LRUCache.get_some_mem hfst with ⟨ts, hmem⟩
        refine ⟨hinv _ hmem (anonKey_viewKey target) m hm, hwf _ hmem m hm⟩
      | none =>
        simp only [fetchProviderEmails, hget] at hm
        by_cases haccts : accounts = []
        · rw [if_pos haccts] at hm
          cases hm
        · rw [if_neg haccts] at hm
          simp only [if_neg] at hm
          exact mem_visible_anon hm
  refine ⟨hmain, ?_, ?_⟩
  · intro m hm A hA hplusA heq
    rcases hmain m hm with ⟨htrue, hclass⟩
    have hplusm : '+' ∉ lcLower m.toAddr := by
      rw [heq]
      exact hplusA
    have hfalse := isAliasEmail_own_address hA heq.symm hplusm
    rw [← hclass, htrue] at hfalse
    cases hfalse
  · intro b
    cases hget : cache.get now (viewKey target b) with
    | mk o cache1 =>
      have hsub1 : ∀ e ∈ cache1.entries, e ∈ cache.entries := by
        have := LRUCache.get_entries_subset cache now (viewKey target b)
        rw [hget] at this
        exact this
      cases o with
      | some cachedList =>
        constructor
        · simp only [fetchProviderEmails, hget]
          exact anonSafe_mono hsub1 hinv
        · simp only [fetchProviderEmails, hget]
          exact wellFormed_mono hsub1 hwf
      | none =>
        by_cases haccts : accounts = []
        · constructor
          · simp only [fetchProviderEmails, hget, if_pos haccts]
            exact anonSafe_mono hsub1 hinv
          · simp only [fetchProviderEmails, hget, if_pos haccts]
            exact wellFormed_mono hsub1 hwf
        · have hset := LRUCache.set_entries_cases cache1 now (viewKey target b)
          constructor
          · simp only [fetchProviderEmails, hget, if_neg haccts]
            intro e he hk m hm
            rcases hset _ _ he with hold | hnew
            · exact anonSafe_mono hsub1 hinv e hold hk m hm
            · cases b with
              | false =>
                rw [hnew] at hm
                simp only at hm
                exact (mem_visible_anon hm).1
              | true =>
                rw [hnew] at hk
                exact absurd hk (not_anonKey_viewKey_true target)
          · simp only [fetchProviderEmails, hget, if_neg haccts]
            intro e he m hm
            rcases hset _ _ he with hold | hnew
            · exact wellFormed_mono hsub1 hwf e hold m hm
            · cases b with
              | false =>
                rw [hnew] at hm
                simp only at hm
                exact (mem_visible_anon hm).2
              | true =>
                rw [hnew] at hm
                simp only at hm
                exact mem_visible_auth hm

/-- **C2 counterexample.** `isAliasEmail` classifies *any* address
containing `+` as an alias — including a backend account's own address when
that address itself contains a `+`. With the registry `[a+b@gmail.com]`, a
message addressed exactly to the backend's own address is classified
`isAlias = true` and is returned to an anonymous viewer. -/
theorem claim_C2_anonymous_alias_only_counterexample :
    (fetchProviderEmails ⟨[], 200, 30000⟩ 0 none false
        [⟨"a+b@gmail.com".toList, Provider.gmail⟩]
        [⟨"a+b@gmail.com".toList, 1⟩]).1
      = [⟨"a+b@gmail.com".toList, 1, true⟩] := by
  decide

/-- Concrete witness for the amended C2: empty cache, registry
`[alice@gmail.com]`, one alias message and one message to the base
address; every message the anonymous viewer receives has `isAlias = true`,
and the resulting cache state is anonymous-safe. -/
theorem claim_C2_anonymous_alias_only_witness :
    ((fetchProviderEmails ⟨[], 200, 30000⟩ 0 none false
        [⟨"alice@gmail.com".toList, Provider.gmail⟩]
        [⟨"alice+x@gmail.com".toList, 5⟩, ⟨"alice@gmail.com".toList, 3⟩]).1.all
      (fun m => m.isAlias)) = true
    ∧ anonSafe (fetchProviderEmails ⟨[], 200, 30000⟩ 0 none false
        [⟨"alice@gmail.com".toList, Provider.gmail⟩]
        [⟨"alice+x@gmail.com".toList, 5⟩, ⟨"alice@gmail.com".toList, 3⟩]).2 := by
  have h := claim_C2_anonymous_alias_only ⟨[], 200, 30000⟩ 0 none
    [⟨"alice@gmail.com".toList, Provider.gmail⟩]
    [⟨"alice+x@gmail.com".toList, 5⟩, ⟨"alice@gmail.com".toList, 3⟩]
    (by intro e he hk m hm; simp [LRUCache.entries] at he)
    (by intro e he m hm; simp [LRUCache.entries] at he)
  constructor
  · rw [List.all_eq_true]
    intro m hm
    exact (h.1 m hm).1
  · exact (h.2.2 false).1

/-! ### IDLE handlers. Two source variants exist: the queue-based service
(src/server/email-service.ts) and the single-connection service
(src/unnamed/part_005); they differ in what happens synchronously on an
IDLE event. -/

/-- State of the single-connection variant (part_005): the per-address
view cache, the module-level all-messages cache with its timestamp, and
whether the notification debounce timer is armed. -/
structure SingleServiceState (E : Type) where
  emailCache : LRUCache (List Char) (List E)
  allEmailsCache : List E
  allEmailsCacheTime : Nat
  debounceArmed : Bool

def ALL_EMAILS_CACHE_TTL : Nat := 15000

/-- Freshness check of `fetchAllEmailsOnce` (part_005 line 207):
`allEmailsCache.length > 0 && (now - allEmailsCacheTime) < TTL`. -/
def allCacheFresh {E : Type} (st : SingleServiceState E) (now : Nat) : Bool :=
  decide (0 < st.allEmailsCache.length)
    && decide (now - st.allEmailsCacheTime < ALL_EMAILS_CACHE_TTL)

/-- Synchronous part of the part_005 `mail` handler (lines 650-662):
`allEmailsCacheTime = 0; emailCache.clear()`, then a proactive fetch is
kicked off and the debounce timer is (re)armed. -/
def p5OnMail {E : Type} (st : SingleServiceState E) : SingleServiceState E :=
  { st with allEmailsCacheTime := 0, emailCache := st.emailCache.clear,
            debounceArmed := true }

/-- Synchronous part of the part_005 `expunge` handler (lines 664-674):
only `allEmailsCacheTime = 0`; per-address clearing waits for the
debounce. -/
def p5OnExpunge {E : Type} (st : SingleServiceState E) : SingleServiceState E :=
  { st with allEmailsCacheTime := 0, debounceArmed := true }

/-- The part_005 expunge debounce callback: `clearCache()` (lines 514-519)
plus the subscriber notification. -/
def p5DebounceFire {E : Type} (st : SingleServiceState E) : SingleServiceState E :=
  { st with emailCache := st.emailCache.clear, allEmailsCache := [],
            allEmailsCacheTime := 0, debounceArmed := false }

/-- State of the queue-based service (email-service.ts): one per-address
cache and the debounce flag. -/
structure QueueServiceState (E : Type) where
  emailCache : LRUCache (List Char) (List E)
  debounceArmed : Bool

/-- email-service.ts `mail`/`expunge` handlers (lines 306-328): the
synchronous part only (re)arms the 2 s debounce timer — no cache is
touched before it fires. -/
def esOnIdleEvent {E : Type} (st : QueueServiceState E) : QueueServiceState E :=
  { st with debounceArmed := true }

/-- email-service.ts debounce callback: `clearCache(); notifyEmailUpdate()`. -/
def esDebounceFire {E : Type} (st : QueueServiceState E) : QueueServiceState E :=
  { st with emailCache := st.emailCache.clear, debounceArmed := false }

/-- **C8 counterexample.** In the queue-based service (the variant actually
imported by routes.ts) the IDLE handlers only arm the debounce: no cache
timestamp is zeroed synchronously, and a fetch arriving between the event
and the debounce still hits the cached all-messages list. -/
theorem claim_C8_idle_invalidation_counterexample :
    (esOnIdleEvent (⟨⟨[("all".toList, [42], 1000)], 200, 30000⟩, false⟩
        : QueueServiceState Nat)).emailCache
      = (⟨[("all".toList, [42], 1000)], 200, 30000⟩ : LRUCache (List Char) (List Nat))
    ∧ ((esOnIdleEvent (⟨⟨[("all".toList, [42], 1000)], 200, 30000⟩, false⟩
        : QueueServiceState Nat)).emailCache.get 1500 ("all".toList)).1 = some [42] := by
  constructor
  · rfl
  · decide

/-- **C8** (amended). In the part_005 single-connection variant, both IDLE
handlers zero `allEmailsCacheTime` synchronously, before the debounce
fires, so the next `fetchAllEmailsOnce` freshness check misses (for any
wall-clock time past the 15 s TTL); the `mail` handler additionally clears
the per-address cache immediately, while the `expunge` handler defers
per-address clearing (and both defer the subscriber notification) to the
debounce. In the queue-based email-service.ts variant the handlers touch
no cache at all: clearing happens only when the debounce fires. -/
theorem claim_C8_idle_invalidation {E : Type} (st : SingleServiceState E)
    (st2 : QueueServiceState E) (now : Nat) (hnow : ALL_EMAILS_CACHE_TTL ≤ now) :
    (p5OnMail st).allEmailsCacheTime = 0
    ∧ (p5OnExpunge st).allEmailsCacheTime = 0
    ∧ allCacheFresh (p5OnMail st) now = false
    ∧ allCacheFresh (p5OnExpunge st) now = false
    ∧ (p5OnMail st).emailCache.entries = []
    ∧ (p5OnExpunge st).emailCache = st.emailCache
    ∧ (p5OnMail st).debounceArmed = true
    ∧ (p5OnExpunge st).debounceArmed = true
    ∧ (p5DebounceFire st).emailCache.entries = []
    ∧ (esOnIdleEvent st2).emailCache = st2.emailCache
    ∧ (esOnIdleEvent st2).debounceArmed = true
    ∧ (esDebounceFire st2).emailCache.entries = [] := by
  have hfresh : ∀ t : SingleServiceState E, t.allEmailsCacheTime = 0 →
      allCacheFresh t now = false := by
    intro t ht
    rw [allCacheFresh, ht]
    have : ¬ (now - 0 < ALL_EMAILS_CACHE_TTL) := by omega
    simp [this]
    exact fun _ => hnow
  refine ⟨rfl, rfl, hfresh _ rfl, hfresh _ rfl, rfl, rfl, rfl, rfl, rfl, rfl, rfl, rfl⟩

/-- Concrete witness for C8 at a populated part_005 state and
`now = 20000`. -/
theorem claim_C8_idle_invalidation_witness :
    (p5OnMail (⟨⟨[("a".toList, [7], 500)], 500, 15000⟩, [7], 500, false⟩
        : SingleServiceState Nat)).allEmailsCacheTime = 0
    ∧ allCacheFresh (p5OnExpunge (⟨⟨[("a".toList, [7], 500)], 500, 15000⟩, [7], 500, false⟩
        : SingleServiceState Nat)) 20000 = false
    ∧ (p5OnExpunge (⟨⟨[("a".toList, [7], 500)], 500, 15000⟩, [7], 500, false⟩
        : SingleServiceState Nat)).emailCache
      = (⟨[("a".toList, [7], 500)], 500, 15000⟩ : LRUCache (List Char) (List Nat)) := by
  have h := claim_C8_idle_invalidation
    (⟨⟨[("a".toList, [7], 500)], 500, 15000⟩, [7], 500, false⟩ : SingleServiceState Nat)
    (⟨⟨[], 200, 30000⟩, false⟩ : QueueServiceState Nat) 20000 (by decide)
  exact ⟨h.1, h.2.2.2.1, h.2.2.2.2.2.1⟩

/-! ### Delete and its cache footprint (deleteEmail, email-service.ts
lines 592-657; deleteProviderEmail, multi-account service lines 924-991). -/

inductive DeleteEvent where
  | credsMissing
  | openBoxError
  | searchError
  | notFound
  | flagError
  | expungeError
  | success
deriving DecidableEq

/-- `deleteEmail`: the payload cache is read *first* (line 593, with the
LRU's TTL-eviction/MRU-promotion side effects), then the IMAP steps run;
only full success clears the view cache entirely and deletes the payload
entry (lines 639-641); every failure path resolves `false` without further
cache writes. -/
def deleteEmailM {E P : Type} (view : LRUCache (List Char) (List E))
    (data : LRUCache (List Char) P) (now : Nat) (emailId : List Char)
    (ev : DeleteEvent) :
    Bool × LRUCache (List Char) (List E) × LRUCache (List Char) P :=
  let data1 := (data.get now emailId).2
  match ev with
  | DeleteEvent.success => (true, view.clear, data1.del emailId)
  | _ => (false, view, data1)

/-- `deleteProviderEmail`: `createImapConfig` is checked *before* the
payload-cache lookup (lines 928-931), so a missing-credentials failure
leaves both caches fully untouched; the rest is as `deleteEmail`. -/
def deleteProviderEmailM {E P : Type} (hasConfig : Bool)
    (view : LRUCache (List Char) (List E)) (data : LRUCache (List Char) P)
    (now : Nat) (emailId : List Char) (ev : DeleteEvent) :
    Bool × LRUCache (List Char) (List E) × LRUCache (List Char) P :=
  if hasConfig then deleteEmailM view data now emailId ev
  else (false, view, data)

/-- An LRU `get` leaves every other key's entries untouched. -/
theorem LRUCache.get_other_keys {K V : Type} [DecidableEq K]
    (c : LRUCache K V) (now : Nat) (k : K) :
    ∀ e : K × V × Nat, e.1 ≠ k → (e ∈ (c.get now k).2.entries ↔ e ∈ c.entries) := by
  intro e he
  cases hf : c.entries.find? (fun x => decide (x.1 = k)) with
  | none =>
    simp only [LRUCache.get, hf]
  | some e0 =>
    have hk0 : e0.1 = k := by
      have := List.find?_some hf
      simpa using this
    by_cases ht : c.ttl < now - e0.2.2
    · simp only [LRUCache.get, hf, if_pos ht]
      rw [LRUCache.eraseKey, List.mem_filter]
      constructor
      · exact fun h => h.1
      · exact fun h => ⟨h, by simpa using he⟩
    · simp only [LRUCache.get, hf, if_neg ht, List.mem_append, List.mem_singleton]
      constructor
      · rintro (h | h)
        · exact List.mem_of_mem_filter h
        · rw [h]
          exact List.mem_of_find?_eq_some hf
      · intro h
        left
        rw [LRUCache.eraseKey, List.mem_filter]
        exact ⟨h, by simpa using he⟩

/-- Keys other than the deleted one survive `del` untouched. -/
theorem LRUCache.del_other_keys {K V : Type} [DecidableEq K]
    (c : LRUCache K V) (k : K) :
    ∀ e : K × V × Nat, e.1 ≠ k → (e ∈ (c.del k).entries ↔ e ∈ c.entries) := by
  intro e he
  rw [LRUCache.del]
  simp only [LRUCache.eraseKey, List.mem_filter]
  constructor
  · exact fun h => h.1
  · exact fun h => ⟨h, by simpa using he⟩

/-- **C10 counterexample.** The claim says a failed delete "leaves every
cache unchanged", but `deleteEmail` reads the payload cache before its
failure checks: with an expired payload entry for the deleted id, a delete
that fails for missing credentials still evicts that entry. -/
theorem claim_C10_delete_footprint_counterexample :
    (deleteEmailM (⟨[("a".toList, [1], 0)], 200, 30000⟩ : LRUCache (List Char) (List Nat))
        (⟨[("id1".toList, 9, 0)], 200, 180000⟩ : LRUCache (List Char) Nat)
        200000 ("id1".toList) DeleteEvent.credsMissing).1 = false
    ∧ (deleteEmailM (⟨[("a".toList, [1], 0)], 200, 30000⟩ : LRUCache (List Char) (List Nat))
        (⟨[("id1".toList, 9, 0)], 200, 180000⟩ : LRUCache (List Char) Nat)
        200000 ("id1".toList) DeleteEvent.credsMissing).2.2.entries = []
    ∧ ((⟨[("id1".toList, 9, 0)], 200, 180000⟩ : LRUCache (List Char) Nat)).entries ≠ [] := by
  refine ⟨rfl, by decide, by decide⟩

/-- **C10** (amended). A successful delete returns `true`, clears the
entire per-address view cache and removes exactly the deleted id from the
payload cache (every other key survives). A failed delete returns `false`
and leaves the view cache unchanged; the payload cache is unchanged except
for the side effects of the initial lookup of the deleted id (MRU
promotion, or eviction when that entry is expired) — other keys are never
affected. In `deleteProviderEmail` the missing-credentials failure occurs
before that lookup and leaves both caches fully unchanged. -/
theorem claim_C10_delete_footprint {E P : Type}
    (view : LRUCache (List Char) (List E)) (data : LRUCache (List Char) P)
    (now : Nat) (emailId : List Char) (ev : DeleteEvent) :
    (ev = DeleteEvent.success →
      (deleteEmailM view data now emailId ev).1 = true
      ∧ (deleteEmailM view data now emailId ev).2.1.entries = []
      ∧ (∀ e ∈ (deleteEmailM view data now emailId ev).2.2.entries, e.1 ≠ emailId)
      ∧ (∀ e : List Char × P × Nat, e.1 ≠ emailId →
          ((e ∈ (deleteEmailM view data now emailId ev).2.2.entries) ↔ e ∈ data.entries)))
    ∧ (ev ≠ DeleteEvent.success →
      (deleteEmailM view data now emailId ev).1 = false
      ∧ (deleteEmailM view data now emailId ev).2.1 = view
      ∧ (deleteEmailM view data now emailId ev).2.2 = (data.get now emailId).2
      ∧ (∀ e : List Char × P × Nat, e.1 ≠ emailId →
          ((e ∈ (deleteEmailM view data now emailId ev).2.2.entries) ↔ e ∈ data.entries)))
    ∧ deleteProviderEmailM false view data now emailId ev = (false, view, data)
    ∧ deleteProviderEmailM true view data now emailId ev
        = deleteEmailM view data now emailId ev := by
  refine ⟨?_, ?_, rfl, rfl⟩
  · intro hev
    subst hev
    refine ⟨rfl, rfl, ?_, ?_⟩
    · intro e he
      simp only [deleteEmailM, LRUCache.del] at he
      exact LRUCache.not_mem_keys_eraseKey _ _ e he
    · intro e he
      have h1 := LRUCache.del_other_keys (data.get now emailId).2 emailId e he
      have h2 := LRUCache.get_other_keys data now emailId e he
      simp only [deleteEmailM]
      rw [h1, h2]
  · intro hev
    have hne : ∀ (a : Bool × LRUCache (List Char) (List E) × LRUCache (List Char) P),
        deleteEmailM view data now emailId ev = a →
        a = (false, view, (data.get now emailId).2) := by
      intro a ha
      cases ev <;> first
        | (exact absurd rfl hev)
        | (rw [← ha]; rfl)
    have heq := hne _ rfl
    refine ⟨by rw [heq], by rw [heq], by rw [heq], ?_⟩
    intro e he
    rw [heq]
    exact LRUCache.get_other_keys data now emailId e he

/-- Concrete witness for C10: a successful delete of `id1` clears the view
cache and evicts exactly `id1` from the payload cache; a failed delete
(fresh payload entry) returns `false` with the view cache intact and the
payload entry still present. -/
theorem claim_C10_delete_footprint_witness :
    (deleteEmailM (⟨[("a".toList, [1], 0)], 200, 30000⟩ : LRUCache (List Char) (List Nat))
        (⟨[("id1".toList, 9, 0), ("id2".toList, 8, 0)], 200, 180000⟩ : LRUCache (List Char) Nat)
        100 ("id1".toList) DeleteEvent.success).1 = true
    ∧ (deleteEmailM (⟨[("a".toList, [1], 0)], 200, 30000⟩ : LRUCache (List Char) (List Nat))
        (⟨[("id1".toList, 9, 0), ("id2".toList, 8, 0)], 200, 180000⟩ : LRUCache (List Char) Nat)
        100 ("id1".toList) DeleteEvent.success).2.1.entries = []
    ∧ (("id2".toList, (8 : Nat), (0 : Nat)) ∈
        (deleteEmailM (⟨[("a".toList, [1], 0)], 200, 30000⟩ : LRUCache (List Char) (List Nat))
          (⟨[("id1".toList, 9, 0), ("id2".toList, 8, 0)], 200, 180000⟩ : LRUCache (List Char) Nat)
          100 ("id1".toList) DeleteEvent.success).2.2.entries
        ↔ ("id2".toList, (8 : Nat), (0 : Nat)) ∈
          (⟨[("id1".toList, 9, 0), ("id2".toList, 8, 0)], 200, 180000⟩
            : LRUCache (List Char) Nat).entries)
    ∧ (deleteEmailM (⟨[("a".toList, [1], 0)], 200, 30000⟩ : LRUCache (List Char) (List Nat))
        (⟨[("id1".toList, 9, 0), ("id2".toList, 8, 0)], 200, 180000⟩ : LRUCache (List Char) Nat)
        100 ("id1".toList) DeleteEvent.flagError).1 = false
    ∧ (deleteEmailM (⟨[("a".toList, [1], 0)], 200, 30000⟩ : LRUCache (List Char) (List Nat))
        (⟨[("id1".toList, 9, 0), ("id2".toList, 8, 0)], 200, 180000⟩ : LRUCache (List Char) Nat)
        100 ("id1".toList) DeleteEvent.flagError).2.1
      = (⟨[("a".toList, [1], 0)], 200, 30000⟩ : LRUCache (List Char) (List Nat)) := by
  have hs := claim_C10_delete_footprint
    (⟨[("a".toList, [1], 0)], 200, 30000⟩ : LRUCache (List Char) (List Nat))
    (⟨[("id1".toList, 9, 0), ("id2".toList, 8, 0)], 200, 180000⟩ : LRUCache (List Char) Nat)
    100 ("id1".toList) DeleteEvent.success
  have hf := claim_C10_delete_footprint
    (⟨[("a".toList, [1], 0)], 200, 30000⟩ : LRUCache (List Char) (List Nat))
    (⟨[("id1".toList, 9, 0), ("id2".toList, 8, 0)], 200, 180000⟩ : LRUCache (List Char) Nat)
    100 ("id1".toList) DeleteEvent.flagError
  have hs1 := hs.1 rfl
  have hf1 := hf.2.1 (by decide)
  exact ⟨hs1.1, hs1.2.1, hs1.2.2.2 _ (by decide), hf1.1, hf1.2.1⟩

end TempMail
